import Mathlib

/-!
Verification of `@fschopp/project-planning-for-you-track` (TypeScript) against its
natural-language specification.

The TypeScript sources are shallowly embedded below.  JavaScript numbers that hold
timestamps, durations and counts are modelled as `Int` (all arithmetic performed on
them in the relevant code paths is exact integer arithmetic well below 2^53, except
for the real-time conversion in `scheduleUnresolved`, which is modelled over `ℚ`).
JavaScript `Map` objects are modelled as association lists in insertion order or,
where the code never iterates over the map, as total functions.  Mutation of
objects shared between several arrays (in `appendSchedule`) is modelled with an
explicit store of activities addressed by index.  Code paths that throw
(`assert` failures, property access on `undefined`) are modelled with `Option`.
-/

namespace YouTrackPlanning

/-- Number.MAX_SAFE_INTEGER, used by the source as the sentinel for open-ended
activities and as the timestamp of the final synthetic state transition. -/
def MAX_SAFE_INTEGER : Int := 9007199254740991

/-- Number.MIN_SAFE_INTEGER, the initial sweep timestamp in `groupByIntervalAndWaitStatus`. -/
def MIN_SAFE_INTEGER : Int := -9007199254740991

/-- IssueActivity from `api-types.ts`: a time period in which work was or is scheduled
to be performed on an issue.  The source's `end` property is called `stop` here because
`end` is a Lean keyword. -/
structure IssueActivity where
  assignee : String
  start : Int
  stop : Int
  isWaiting : Bool
deriving DecidableEq, Repr, Inhabited

/-- ProjectPlanWarning from `api-types.ts`. -/
structure ProjectPlanWarning where
  description : String
  issueId : Option String := none
deriving DecidableEq, Repr

/-- YouTrackIssue from `api-types.ts` (the fields of `Required<SchedulableIssue>` that it
extends are not read by `appendSchedule`, which deep-clones them verbatim; the ones
needed elsewhere in this development live in `SchedulableIssue` below). -/
structure YouTrackIssue where
  id : String
  summary : String := ""
  issueActivities : List IssueActivity
  resolved : Int := MAX_SAFE_INTEGER
  state : String := ""
deriving DecidableEq, Repr

/-- ProjectPlan from `api-types.ts`. -/
structure ProjectPlan where
  issues : List YouTrackIssue
  warnings : List ProjectPlanWarning
deriving DecidableEq, Repr

/-- Schedule = ScheduledIssue[] = IssueActivity[][] from `api-types.ts`. -/
abbrev Schedule := List (List IssueActivity)

/-! ### Timeline Composer: `appendSchedule` (src/main/scheduling.ts, lines 85-148)

In the source, the per-assignee map `assigneeToActivities` and the array
`issue.issueActivities` hold references to the *same* activity objects, and the merge
step mutates the `end` property of such a shared object.  To capture this aliasing
faithfully, activities are kept in a `store` (a list addressed by position), and both
`issueActs` (the issue's activity list) and `byAssignee` (the per-assignee map) hold
store indices.  `byAssignee` is modelled as a total function because the code only
ever looks up and appends per-key lists and never iterates over the map. -/

structure MergeState where
  store : List IssueActivity
  issueActs : List Nat
  byAssignee : String → List Nat

/-- Loop body of the first loop of `appendSchedule`: a past activity of the (cloned)
project plan is kept iff it starts strictly before the division timestamp; its end is
clipped to `min end divisionTimestamp`; it is recorded in `issue.issueActivities`
(here `issueActs`) and grouped by assignee. -/
def addPastActivity (divisionTimestamp : Int) (st : MergeState) (p : IssueActivity) :
    MergeState :=
  if p.start < divisionTimestamp then
    let entry : IssueActivity := { p with stop := min p.stop divisionTimestamp }
    let n := st.store.length
    { store := st.store ++ [entry]
      issueActs := st.issueActs ++ [n]
      byAssignee := fun b =>
        if b = p.assignee then st.byAssignee b ++ [n] else st.byAssignee b }
  else
    st

/-- Loop body of the second loop of `appendSchedule`: a scheduled (forecast) activity is
dropped if it ends at or before the division timestamp; otherwise its start is clipped
to `max start divisionTimestamp`; if the last activity of the same assignee ends exactly
at the new activity's start and has the same waiting flag, that activity is extended
in place (mutation of the shared object, modelled as a store update), else the new
activity is appended to both the assignee's list and the issue's list. -/
def addScheduledActivity (divisionTimestamp : Int) (st : MergeState) (s : IssueActivity) :
    MergeState :=
  if s.stop ≤ divisionTimestamp then
    st
  else
    let newActivity : IssueActivity := { s with start := max s.start divisionTimestamp }
    let assigneeActivities := st.byAssignee s.assignee
    match assigneeActivities.getLast? with
    | some j =>
      let lastAct := st.store.getD j default
      if lastAct.stop = newActivity.start ∧ lastAct.isWaiting = newActivity.isWaiting then
        { st with store := st.store.set j { lastAct with stop := newActivity.stop } }
      else
        let n := st.store.length
        { store := st.store ++ [newActivity]
          issueActs := st.issueActs ++ [n]
          byAssignee := fun b =>
            if b = s.assignee then st.byAssignee b ++ [n] else st.byAssignee b }
    | none =>
      let n := st.store.length
      { store := st.store ++ [newActivity]
        issueActs := st.issueActs ++ [n]
        byAssignee := fun b =>
          if b = s.assignee then st.byAssignee b ++ [n] else st.byAssignee b }

/-- Structurally recursive stable insertion of an element into a sorted list: the new
element is placed before the first element it compares less-or-equal to. -/
def stableInsert (le : α → α → Bool) (x : α) : List α → List α
  | [] => [x]
  | y :: l => if le x y then x :: y :: l else y :: stableInsert le x l

/-- Structurally recursive stable sort.  `Array.prototype.sort` is stable and all
comparators used by the source are total preorders, for which the stably sorted
permutation is unique, so this insertion sort computes exactly the source's sort
results.  (Lean's `List.mergeSort` is defined by well-founded recursion, which the
kernel cannot evaluate, hence this definition.) -/
def stableSort (le : α → α → Bool) : List α → List α
  | [] => []
  | x :: l => stableInsert le x (stableSort le l)

/-- Lexicographic comparison of character lists by code point, the order JavaScript's
default string comparison uses (up to surrogate pairs, which do not occur in this
development). -/
def charListLT : List Char → List Char → Bool
  | [], [] => false
  | [], _ :: _ => true
  | _ :: _, [] => false
  | c1 :: r1, c2 :: r2 =>
    if c1.toNat < c2.toNat then true
    else if c2.toNat < c1.toNat then false
    else charListLT r1 r2

/-- Lexicographic string comparison (strict). -/
def jsStringLT (a b : String) : Bool :=
  charListLT a.data b.data

/-- Lexicographic string comparison (non-strict). -/
def jsStringLE (a b : String) : Bool :=
  !jsStringLT b a

/-- Comparator of the final sort of `appendSchedule`: by end timestamp, ties broken by
assignee.  The source uses `Intl.Collator('en')` for the tie-break; this embedding uses
plain lexicographic order on strings, which agrees with the collator on the inputs of
interest here and does not affect any of the verified claims (the sorted set is the
same). -/
def activityLE (left right : IssueActivity) : Bool :=
  decide (left.stop < right.stop) ||
    (decide (left.stop = right.stop) && jsStringLE left.assignee right.assignee)

/-- Per-issue body of `appendSchedule` (the loop over `newProjectPlan.issues`). -/
def appendScheduleIssue (divisionTimestamp : Int) (issue : YouTrackIssue)
    (scheduledIssue : List IssueActivity) : YouTrackIssue :=
  let st0 : MergeState := ⟨[], [], fun _ => []⟩
  let st1 := issue.issueActivities.foldl (addPastActivity divisionTimestamp) st0
  let st2 := scheduledIssue.foldl (addScheduledActivity divisionTimestamp) st1
  { issue with issueActivities :=
      (st2.issueActs.map (fun i => st2.store.getD i default)) |> stableSort activityLE }

/-- appendSchedule (src/main/scheduling.ts, lines 85-148).  Returns the failure string
(`Except.error`) iff the issue counts differ; otherwise a new project plan built from a
deep clone of the input (deep-cloning is the identity in this pure embedding). -/
def appendSchedule (projectPlan : ProjectPlan) (schedule : Schedule)
    (divisionTimestamp : Int) : Except String ProjectPlan :=
  if projectPlan.issues.length ≠ schedule.length then
    .error "The given project plan and the new schedule have a different number of issues."
  else
    .ok { projectPlan with
          issues := (projectPlan.issues.zip schedule).map
            (fun p => appendScheduleIssue divisionTimestamp p.1 p.2) }

/-! ### Interval Grouper: `groupByIntervalAndWaitStatus` (src/main/scheduling.ts, lines 176-228, 478-510)

The JavaScript `Map<string, number>` of per-assignee active counts is iterated over
(insertion order) when collecting the current assignee set, so it is modelled as an
association list with JavaScript `Map.set` semantics (updating a key in place keeps its
position; a new key is appended).  The `assert(assigneeActiveCount >= 0)` in the source
throws on violation; the embedding returns `none` in that case. -/

/-- MultiAssigneeIssueActivity from `api-types.ts`. -/
structure MultiAssigneeIssueActivity where
  assignees : List String
  start : Int
  stop : Int
  isWaiting : Bool
deriving DecidableEq, Repr

/-- JavaScript `Map.set` on an association list: replaces the value of an existing key in
place, otherwise appends the new entry. -/
def jsMapSet (m : List (String × Int)) (k : String) (v : Int) : List (String × Int) :=
  match m with
  | [] => [(k, v)]
  | (k', v') :: rest => if k' = k then (k, v) :: rest else (k', v') :: jsMapSet rest k v

/-- JavaScript `Map.get` on an association list. -/
def jsMapGet (m : List (String × Int)) (k : String) : Option Int :=
  match m with
  | [] => none
  | (k', v') :: rest => if k' = k then some v' else jsMapGet rest k

/-- timePassed (src/main/scheduling.ts, lines 478-510).  Returns the updated
`lastActivity` together with the updated `result` array (the source pushes to `result`
by mutation). -/
def timePassed (lastActivity : MultiAssigneeIssueActivity) (lastTimestamp : Int)
    (currentAssignees : List (String × Int)) (result : List MultiAssigneeIssueActivity)
    (isWaiting : Bool) : MultiAssigneeIssueActivity × List MultiAssigneeIssueActivity :=
  let changedByLoss := lastActivity.assignees.any
    (fun assignee => decide ((jsMapGet currentAssignees assignee).getD 0 ≤ 0))
  let assignees := (currentAssignees.filter (fun kv => decide (0 < kv.2))).map (·.1)
  let assigneesChanged := changedByLoss || decide (lastActivity.assignees.length ≠ assignees.length)
  if assigneesChanged then
    let result' := if lastActivity.assignees.length > 0 then
        result ++ [{ lastActivity with stop := lastTimestamp }]
      else result
    (⟨stableSort jsStringLE assignees, lastTimestamp, MAX_SAFE_INTEGER, isWaiting⟩,
     result')
  else
    (lastActivity, result)

/-- Event type of the sweep line in `groupByIntervalAndWaitStatus`. -/
inductive IssueEventType where
  | ADDED
  | REMOVED
deriving DecidableEq, Repr

/-- Event of the sweep line in `groupByIntervalAndWaitStatus`. -/
structure IssueEvent where
  type : IssueEventType
  assignee : String
  timestamp : Int
  isWaiting : Bool
deriving DecidableEq, Repr

/-- Loop state of the sweep over the sorted events of one wait-status group. -/
structure SweepState where
  lastActivity : MultiAssigneeIssueActivity
  lastTimestamp : Int
  counts : List (String × Int)
  result : List MultiAssigneeIssueActivity

/-- Body of the event loop in `groupByIntervalAndWaitStatus`.  Returns `none` when the
source's `assert(assigneeActiveCount >= 0, 'count cannot become negative')` would throw. -/
def processIssueEvent (isWaiting : Bool) (st : SweepState) (event : IssueEvent) :
    Option SweepState :=
  let (la, res) :=
    if st.lastTimestamp < event.timestamp then
      timePassed st.lastActivity st.lastTimestamp st.counts st.result isWaiting
    else
      (st.lastActivity, st.result)
  let count0 := (jsMapGet st.counts event.assignee).getD 0
  let count1 := if event.type = IssueEventType.REMOVED then count0 - 1 else count0 + 1
  if count1 < 0 then
    none
  else
    some ⟨la, event.timestamp, jsMapSet st.counts event.assignee count1, res⟩

/-- One iteration of the outer `for (const isWaiting of [false, true])` loop of
`groupByIntervalAndWaitStatus`: build the events of one wait-status group, sort them by
timestamp (stably, like `Array.prototype.sort`), and sweep.  `result` accumulates across
both groups, as in the source. -/
def runWaitStatusGroup (activities : List IssueActivity) (isWaiting : Bool)
    (result : List MultiAssigneeIssueActivity) : Option (List MultiAssigneeIssueActivity) := do
  let events := (activities.filter (fun a => a.isWaiting = isWaiting)).flatMap
    (fun activity =>
      [⟨IssueEventType.ADDED, activity.assignee, activity.start, isWaiting⟩,
       ⟨IssueEventType.REMOVED, activity.assignee, activity.stop, isWaiting⟩])
  let sortedEvents := stableSort (fun e1 e2 => decide (e1.timestamp ≤ e2.timestamp)) events
  let st0 : SweepState := ⟨⟨[], MIN_SAFE_INTEGER, MAX_SAFE_INTEGER, false⟩, MIN_SAFE_INTEGER, [], result⟩
  let st ← sortedEvents.foldlM (processIssueEvent isWaiting) st0
  return (timePassed st.lastActivity st.lastTimestamp st.counts st.result isWaiting).2

/-- Comparator of the final sort of `groupByIntervalAndWaitStatus`: by start timestamp,
ties broken non-waiting before waiting. -/
def multiActivityLE (first second : MultiAssigneeIssueActivity) : Bool :=
  if first.start = second.start then
    decide ((if first.isWaiting then (1 : Int) else 0) ≤ (if second.isWaiting then 1 else 0))
  else
    decide (first.start ≤ second.start)

/-- groupByIntervalAndWaitStatus (src/main/scheduling.ts, lines 176-228).  `none` models
the `assert` in the event loop throwing. -/
def groupByIntervalAndWaitStatus (activities : List IssueActivity) :
    Option (List MultiAssigneeIssueActivity) := do
  let r1 ← runWaitStatusGroup activities false []
  let r2 ← runWaitStatusGroup activities true r1
  return stableSort multiActivityLE r2

/-! ### Issue Forest: `makeForest` (src/main/issue-forest.ts)

A node's links are represented by positions into the node list (an arena), since the
source's object graph is cyclic (`parent`/`children`, `dependencies`/`dependents`).
`idToNode` is a JavaScript `Map` keyed by issue id built with `Map.set` semantics;
`makeForest` then iterates over its values.  Looking up an absent parent or dependency
id in the source yields `undefined` and the subsequent property access throws a
`TypeError`; the embedding returns `none` in exactly that case. -/

/-- SchedulableIssue from `api-types.ts`.  `parent`, `dependencies` and `assignee` are
optional in TypeScript (`undefined` when absent), hence `Option`/defaults here; an empty
string `parent` also means "no parent". -/
structure SchedulableIssue where
  id : String
  remainingEffortMs : Int
  remainingWaitTimeMs : Int := 0
  parent : Option String := none
  splittable : Bool := false
  dependencies : List String := []
  assignee : String := ""
deriving DecidableEq, Repr

instance : Inhabited SchedulableIssue := ⟨⟨"", 0, 0, none, false, [], ""⟩⟩

/-- JavaScript `Map.set` keyed by issue id, remembering each issue's index in the input
array (the source stores the index in the node): replacing an existing key keeps its
position but stores the new index and issue. -/
def jsIssueMapSet (m : List (Nat × SchedulableIssue)) (idx : Nat) (issue : SchedulableIssue) :
    List (Nat × SchedulableIssue) :=
  match m with
  | [] => [(idx, issue)]
  | (i, x) :: rest =>
    if x.id = issue.id then (idx, issue) :: rest else (i, x) :: jsIssueMapSet rest idx issue

/-- Value list (in insertion order) of the `idToNode` map of `makeForest`. -/
def idToNodeEntries (issues : List SchedulableIssue) : List (Nat × SchedulableIssue) :=
  (issues.enum.foldl (fun m p => jsIssueMapSet m p.1 p.2) [])

/-- Issue forest produced by `makeForest`, as an arena: position `i` in `nodes` holds the
node for the `i`-th map value; all links are positions. -/
structure Forest where
  nodes : List (Nat × SchedulableIssue)
  parentIdx : List (Option Nat)
  childrenIdx : List (List Nat)
  dependenciesIdx : List (List Nat)
  dependentsIdx : List (List Nat)
deriving DecidableEq, Repr

/-- Resolution of one issue's parent reference: `some none` for no parent (absent or
empty-string id), `some (some j)` for a parent resolving to node `j`, and `none` when
the referenced id is absent from the map (the source then throws a `TypeError` on
`node.parent.children.push`). -/
def resolveParentRef (entries : List (Nat × SchedulableIssue)) (issue : SchedulableIssue) :
    Option (Option Nat) :=
  match issue.parent with
  | none => some none
  | some parentKey =>
    if parentKey = "" then some none
    else (entries.findIdx? (fun e => e.2.id = parentKey)).map some

/-- Applies a fallible function to every element, failing if any application fails
(`List.mapM` over `Option`, written with structural recursion for easy reasoning and
kernel evaluation). -/
def mapOrNone (f : α → Option β) : List α → Option (List β)
  | [] => some []
  | x :: l =>
    match f x, mapOrNone f l with
    | some y, some ys => some (y :: ys)
    | _, _ => none

/-- makeForest (src/main/issue-forest.ts, lines 12-48).  `none` models the `TypeError`
thrown on an unresolved parent or dependency reference.  The `children` list of node `j`
collects, in value order, every node whose parent resolves to `j` (the source builds it
by pushing while iterating the nodes in that order); `dependents` likewise. -/
def makeForest (issues : List SchedulableIssue) : Option Forest :=
  let entries := idToNodeEntries issues
  let n := entries.length
  match mapOrNone (fun e => resolveParentRef entries e.2) entries,
      mapOrNone (fun e => mapOrNone
        (fun dependency => entries.findIdx? (fun e' => e'.2.id = dependency))
        e.2.dependencies) entries with
  | some parentRefs, some depRefs =>
    some ⟨entries, parentRefs,
      (List.range n).map
        (fun j => ((List.range n).filter (fun i => parentRefs.getD i none = some j))),
      depRefs,
      (List.range n).map
        (fun j => ((List.range n).flatMap
          (fun i => ((depRefs.getD i []).filter (fun d => d = j)).map (fun _ => i))))⟩
  | _, _ => none

/-- Root nodes of the forest, in node order: exactly the nodes without a parent link
(the iterable returned by `makeForest` yields the nodes with `node.parent === undefined`
in node order). -/
def Forest.roots (F : Forest) : List Nat :=
  (List.range F.nodes.length).filter (fun i => F.parentIdx.getD i none = none)

/-- Children positions of node `i`. -/
def Forest.childrenOf (F : Forest) (i : Nat) : List Nat :=
  F.childrenIdx.getD i []

/-- Dependency positions of node `i`. -/
def Forest.dependenciesOf (F : Forest) (i : Nat) : List Nat :=
  F.dependenciesIdx.getD i []

/-- Issue of node `i`. -/
def Forest.issueOf (F : Forest) (i : Nat) : SchedulableIssue :=
  (F.nodes.getD i (0, default)).2

/-! ### Scheduling Reducer: `makeJobDescriptors` and `makeSchedulingInstance`
(src/main/scheduling.ts, lines 274-450)

The source mutates `jobIdx`, `startToStartDummyJobIdx` and `asDependencyJobIdx` fields
of the extended issues in two passes; the embedding computes the same index maps as
functions of the node position.  Node positions are used where the source uses
`node.index` (the position of the issue in the input array); the two coincide whenever
the issue ids are distinct, which the theorems below hypothesise. -/

/-- Contributor from `api-types.ts`. -/
structure Contributor where
  id : String
  minutesPerWeek : Int
  numMembers : Option Nat := none
deriving DecidableEq, Repr

/-- SchedulingOptions from `api-types.ts` after `assignDefined(newDefaultSchedulingOptions(), options)`,
i.e. with every optional property filled in (`minutesPerWeek` defaults to 2400,
`resolutionMs` to 3600000, `minActivityDuration` to 1, `predictionStartTimeMs` to `Date.now()`). -/
structure SchedulingOptionsR where
  contributors : List Contributor
  minutesPerWeek : Int
  resolutionMs : Int
  minActivityDuration : Int
  predictionStartTimeMs : Int
deriving DecidableEq, Repr

/-- JobSplitting of `@fschopp/project-planning-js` as used by the source. -/
inductive JobSplitting where
  | MULTIPLE_MACHINES
  | PREEMPTION
deriving DecidableEq, Repr

/-- Job of `@fschopp/project-planning-js` (solver input).  Properties the source omits
for dummy jobs are `none`. -/
structure Job where
  size : Int
  deliveryTime : Option Int := none
  splitting : Option JobSplitting := none
  dependencies : List Nat
  preAssignment : Option Nat := none
deriving DecidableEq, Repr

/-- SchedulingInstance of `@fschopp/project-planning-js`. -/
structure SchedulingInstance where
  machineSpeeds : List Int
  jobs : List Job
  minFragmentSize : Int
deriving DecidableEq, Repr

/-- Machine-to-contributor map of `makeSchedulingInstance`: contributor `i` with
`numMembers` members (default 1) occupies the next `numMembers` machine slots. -/
def machineIdxToContributorIdx (contributors : List Contributor) : List Nat :=
  contributors.enum.flatMap (fun p => List.replicate (p.2.numMembers.getD 1) p.1)

/-- Machine speeds of `makeSchedulingInstance`, filled alongside
`machineIdxToContributorIdx`. -/
def machineSpeedsOf (contributors : List Contributor) : List Int :=
  contributors.enum.flatMap (fun p => List.replicate (p.2.numMembers.getD 1) p.2.minutesPerWeek)

/-- Lookup in the `assigneeToContributorIdx` map of `makeSchedulingInstance`; with
duplicate contributor ids the last entry wins, as with JavaScript `Map.set`. -/
def assigneeToContributorIdx (contributors : List Contributor) (assignee : String) :
    Option Nat :=
  (contributors.enum.reverse.find? (fun p => p.2.id = assignee)).map (·.1)

/-- Work-list form of the stack-based pre-order traversal `traverseIssueForest`
(src/main/issue-forest.ts, lines 62-89): visit a node, then its children in order, then
its remaining siblings.  The fuel argument makes the recursion well-founded; for a
well-formed forest at most `2n + 1` steps are taken, so the chosen fuel never runs out
on inputs satisfying the visit-each-node-once hypothesis of the theorems below. -/
def preorderGo (F : Forest) : Nat → List Nat → List Nat
  | 0, _ => []
  | _, [] => []
  | fuel + 1, i :: rest => i :: preorderGo F fuel (F.childrenOf i ++ rest)

/-- Pre-order visit sequence of `traverseIssueForest` starting from the root nodes. -/
def preorder (F : Forest) : List Nat :=
  preorderGo F (2 * F.nodes.length + 1) F.roots

/-- JobType (src/main/scheduling.ts, lines 274-278). -/
inductive JobType where
  | MAIN
  | START_TO_START
  | FINISH_TO_FINISH
deriving DecidableEq, Repr

/-- First segment of the job descriptors built by `makeJobDescriptors`: during the
traversal, every visited node with children pushes its start-to-start and
finish-to-finish dummy descriptors (dummy jobs come first so that they have higher
priority than all main jobs). -/
def jobDescriptorsFirstSegment (F : Forest) : List (Nat × JobType) :=
  ((preorder F).filter (fun i => F.childrenOf i ≠ [])).flatMap
    (fun i => [(i, JobType.START_TO_START), (i, JobType.FINISH_TO_FINISH)])

/-- Job descriptors of `makeJobDescriptors`: the dummy descriptors in traversal order,
followed by one MAIN descriptor per node in node order (the source's second loop over
the `nodes` array). -/
def jobDescriptors (F : Forest) : List (Nat × JobType) :=
  jobDescriptorsFirstSegment F ++ (List.range F.nodes.length).map (fun i => (i, JobType.MAIN))

/-- Index (`jobIdx`) of the main job of node `i`: the source pushes the MAIN descriptors
in node order after the dummy segment and records the position at push time. -/
def jobIdxOf (F : Forest) (i : Nat) : Nat :=
  (jobDescriptorsFirstSegment F).length + i

/-- Index (`startToStartDummyJobIdx`) of node `i`: initialised to the main job index and
overwritten by the source's index-assignment loop (which scans the descriptors up to the
first MAIN entry) with the position of the node's START_TO_START descriptor, if any. -/
def ssIdxOf (F : Forest) (i : Nat) : Nat :=
  match (jobDescriptors F).findIdx? (fun d => d = (i, JobType.START_TO_START)) with
  | some k => k
  | none => jobIdxOf F i

/-- Index (`asDependencyJobIdx`) of node `i`, analogous to `ssIdxOf` for the
FINISH_TO_FINISH descriptor. -/
def ffIdxOf (F : Forest) (i : Nat) : Nat :=
  match (jobDescriptors F).findIdx? (fun d => d = (i, JobType.FINISH_TO_FINISH)) with
  | some k => k
  | none => jobIdxOf F i

/-- The number of real-time minutes per week (src/main/scheduling.ts, line 289). -/
def MINUTES_PER_WEEK_REAL_TIME : Int := 7 * 24 * 60

/-- Job built by `makeSchedulingInstance` for one descriptor (the switch statement in
src/main/scheduling.ts, lines 356-398).  `dependenciesBase` is the source's
`dependencies` local: the parent's start-to-start dummy index, if there is a parent. -/
def jobFor (F : Forest) (opts : SchedulingOptionsR) (d : Nat × JobType) : Job :=
  let i := d.1
  let issue := F.issueOf i
  let dependenciesBase : List Nat :=
    match F.parentIdx.getD i none with
    | some p => [ssIdxOf F p]
    | none => []
  match d.2 with
  | JobType.START_TO_START =>
    { size := 0
      dependencies := dependenciesBase ++ (F.dependenciesOf i).map (ffIdxOf F) }
  | JobType.FINISH_TO_FINISH =>
    { size := 0
      dependencies := (F.childrenOf i).map (ffIdxOf F) ++ [jobIdxOf F i] }
  | JobType.MAIN =>
    { size := Int.ceil ((issue.remainingEffortMs : ℚ) / (opts.resolutionMs : ℚ)) * opts.minutesPerWeek
      deliveryTime := some (Int.ceil ((issue.remainingWaitTimeMs : ℚ) / (opts.resolutionMs : ℚ)))
      splitting := some (if issue.splittable then JobSplitting.MULTIPLE_MACHINES
        else JobSplitting.PREEMPTION)
      dependencies := dependenciesBase ++
        (if F.childrenOf i = [] then (F.dependenciesOf i).map (ffIdxOf F) else [])
      preAssignment := if issue.assignee.length > 0 then
          assigneeToContributorIdx opts.contributors issue.assignee
        else none }

/-- makeSchedulingInstance (src/main/scheduling.ts, lines 326-399), given the forest of
the issues. -/
def makeSchedulingInstance (F : Forest) (opts : SchedulingOptionsR) : SchedulingInstance :=
  { machineSpeeds := machineSpeedsOf opts.contributors
    jobs := (jobDescriptors F).map (jobFor F opts)
    minFragmentSize := opts.minActivityDuration * opts.minutesPerWeek }

/-- The `jobIdxToExtendedIssue` map restricted to the issue index: job `j` belongs to
the node at `jobIdxToIssueIdx[j]`. -/
def jobIdxToIssueIdx (F : Forest) : List Nat :=
  (jobDescriptors F).map (·.1)

/-! ### Schedule Translator (src/main/scheduling.ts, lines 43-67)

The external solver's output (`ProjectPlanningJs.Schedule`) is an input here: per job,
an ordered list of fragments.  Quantized solver timestamps are converted to epoch
milliseconds with `Math.ceil(predictionStartTimeMs + timestamp * resolutionMs * realTimeFactor)`
where `realTimeFactor = MINUTES_PER_WEEK_REAL_TIME / minutesPerWeek`; the JavaScript
floating-point arithmetic is modelled exactly over `ℚ`. -/

/-- Scheduled job fragment of `@fschopp/project-planning-js` (solver output). -/
structure JobFragment where
  machine : Nat
  start : ℚ
  stop : ℚ
  isWaiting : Bool
deriving DecidableEq, Repr

/-- Schedule of `@fschopp/project-planning-js` (solver output): fragments per job. -/
abbrev MachineSchedule := List (List JobFragment)

/-- The `scheduleTimestampToEpochTime` closure of `scheduleUnresolved`. -/
def scheduleTimestampToEpochTime (opts : SchedulingOptionsR) (timestamp : ℚ) : Int :=
  Int.ceil ((opts.predictionStartTimeMs : ℚ) +
    timestamp * (opts.resolutionMs : ℚ) *
      ((MINUTES_PER_WEEK_REAL_TIME : ℚ) / (opts.minutesPerWeek : ℚ)))

/-- Appends an activity to the `i`-th issue's activity list
(`scheduledIssue.push(issueActivity)` in the source). -/
def pushActivityAt (schedule : List (List IssueActivity)) (i : Nat) (a : IssueActivity) :
    List (List IssueActivity) :=
  schedule.set i (schedule.getD i [] ++ [a])

/-- The activity built for one solved job fragment in `scheduleUnresolved`. -/
def activityOfFragment (opts : SchedulingOptionsR) (machineToContributor : List Nat)
    (frag : JobFragment) : IssueActivity :=
  { assignee := (opts.contributors.getD (machineToContributor.getD frag.machine 0)
      ⟨"", 0, none⟩).id
    start := scheduleTimestampToEpochTime opts frag.start
    stop := scheduleTimestampToEpochTime opts frag.stop
    isWaiting := frag.isWaiting }

/-- Post-solver half of `scheduleUnresolved` (src/main/scheduling.ts, lines 50-66): map
every fragment of every solved job to an issue activity of the owning issue. -/
def translateSchedule (opts : SchedulingOptionsR) (jobToIssue : List Nat)
    (machineToContributor : List Nat) (numIssues : Nat)
    (machineSchedule : MachineSchedule) : List (List IssueActivity) :=
  machineSchedule.enum.foldl
    (fun schedule p =>
      p.2.foldl
        (fun schedule frag =>
          pushActivityAt schedule (jobToIssue.getD p.1 0)
            (activityOfFragment opts machineToContributor frag))
        schedule)
    (List.replicate numIssues [])

/-! ### Timeline Reconstructor: `addStateTransition` and `finalizeSchedule`
(src/main/you-track-planning.ts — `src/unnamed/part_004`, lines 732-916)

The source manipulates the tail `a[n-1], a[n-2], a[n-3]` of the transition array
`a = issue.stateTransitions` with `push`, `pop` and `a.length -= 2`.  The embedding
represents the array *reversed*, most recent transition first, so that all tail surgery
becomes head surgery: the source's `a[n-1]` is the list head, `a.push(x)` is `x :: a`,
`a.pop()` is `List.tail`, and `a.length -= 2` is `List.drop 2`.  `reverse` restores
chronological order at the end. -/

/-- ActiveState (`src/unnamed/part_004`, lines 392-396). -/
inductive ActiveState where
  | UNKNOWN
  | ACTIVE
  | INACTIVE
deriving DecidableEq, Repr

/-- StateTransition (`src/unnamed/part_004`, lines 398-401). -/
structure StateTransition where
  timestamp : Int
  activeState : ActiveState
deriving DecidableEq, Repr

/-- Unknown-state replacement step of `addStateTransition` (the `if` block labelled
"Goal: Preserve invariant 1" in the source): if the most recent transition is UNKNOWN,
reclassify it using `replacementForPreviousUnknown` (falling back to ACTIVE), then pop
it if it now equals its predecessor (or is a leading INACTIVE), or drop the top two
entries when the predecessor is a short-gapped INACTIVE entry. -/
def fixUnknown (c : Int) (a : List StateTransition) (repl : ActiveState) :
    List StateTransition :=
  match a with
  | [] => []
  | x :: rest =>
    if x.activeState ≠ ActiveState.UNKNOWN then a
    else
      let s' := if repl ≠ ActiveState.UNKNOWN then repl else ActiveState.ACTIVE
      match rest with
      | [] => if s' = ActiveState.INACTIVE then [] else [{ x with activeState := s' }]
      | y :: rest2 =>
        if s' = y.activeState then rest
        else
          match rest2 with
          | z :: _ =>
            if y.activeState = ActiveState.INACTIVE ∧ y.timestamp - z.timestamp < c then
              rest2
            else
              { x with activeState := s' } :: rest
          | [] => { x with activeState := s' } :: rest

/-- Tail half of `addStateTransition`, applied after the while loop and the
unknown-reclassification block: the removal of a short trailing inactive phase once the
new timestamp confirms a gap of at least `c` follows it (`a.length -= 2`), the early
return when the new state equals the last one, the pop-and-return discarding a short gap
before a new ACTIVE state, and the final guarded push. -/
def addAfterFix (c : Int) (a2 : List StateTransition) (nt : StateTransition) :
    List StateTransition :=
  let a3 := match a2 with
    | x :: y :: rest =>
      if x.activeState = ActiveState.INACTIVE ∧ x.timestamp - y.timestamp < c ∧
          c ≤ nt.timestamp - x.timestamp then
        rest
      else a2
    | _ => a2
  match a3 with
  | x :: rest =>
    if nt.activeState = x.activeState then a3
    else if rest ≠ [] ∧ nt.activeState = ActiveState.ACTIVE ∧
        nt.timestamp - x.timestamp < c then
      rest
    else nt :: a3
  | [] => if nt.activeState ≠ ActiveState.INACTIVE then [nt] else []

/-- addStateTransition (`src/unnamed/part_004`, lines 732-845), on the reversed
transition list.  In order: the while loop popping entries not older than the new
timestamp, the unknown-reclassification block (`fixUnknown`), then `addAfterFix`. -/
def addStateTransitionRev (c : Int) (a : List StateTransition) (nt : StateTransition)
    (repl : ActiveState) : List StateTransition :=
  addAfterFix c (fixUnknown c (a.dropWhile (fun x => decide (nt.timestamp ≤ x.timestamp))) repl) nt

/-- Initial transition list of an issue (`retrieveIssues`, `src/unnamed/part_004`,
line 633): a single UNKNOWN transition at the issue's creation timestamp. -/
def initialTransitionsRev (created : Int) : List StateTransition :=
  [⟨created, ActiveState.UNKNOWN⟩]

/-- Processing of the per-issue event stream by `parseActivityItems`: each activity-log
event contributes a new transition (its timestamp and the classification of the added
state) and a replacement classification (of the removed state). -/
def processEventsRev (c : Int) (created : Int)
    (events : List (StateTransition × ActiveState)) : List StateTransition :=
  events.foldl (fun a e => addStateTransitionRev c a e.1 e.2) (initialTransitionsRev created)

/-- The two closing `addStateTransition` calls of `finalizeSchedule`
(`src/unnamed/part_004`, lines 874-896): one at the issue's last-update timestamp with
its current state classification, and a final one at `Number.MAX_SAFE_INTEGER`
interpreting UNKNOWN as ACTIVE. -/
def finalizeTransitionsRev (c : Int) (a : List StateTransition) (lastUpdate : Int)
    (activeState : ActiveState) : List StateTransition :=
  let a1 := addStateTransitionRev c a ⟨lastUpdate, activeState⟩ activeState
  let finalState := if activeState = ActiveState.UNKNOWN then ActiveState.ACTIVE
    else activeState
  addStateTransitionRev c a1 ⟨MAX_SAFE_INTEGER, finalState⟩ ActiveState.ACTIVE

/-- Full reconstruction of one issue's state-transition sequence, in chronological
order: initial UNKNOWN transition at creation, the event stream, then the closing
transitions of `finalizeSchedule`. -/
def reconstructStateTransitions (c : Int) (created : Int)
    (events : List (StateTransition × ActiveState)) (lastUpdate : Int)
    (activeState : ActiveState) : List StateTransition :=
  (finalizeTransitionsRev c (processEventsRev c created events) lastUpdate activeState).reverse

/-- The second `assert` of `finalizeSchedule` (`src/unnamed/part_004`, lines 901-909):
the reduce computes the minimum difference between consecutive timestamps (seeding the
previous timestamp with `-c`, so the first transition is compared against `-c`) and the
assertion demands that this minimum is at least `c`. -/
def minStateChangeAssertHolds (c : Int) (transitions : List StateTransition) : Bool :=
  let r := (transitions.map (·.timestamp)).foldl
    (fun (p : Int × Int) timestamp => (min p.1 (timestamp - p.2), timestamp))
    (MAX_SAFE_INTEGER, -c)
  decide (c ≤ r.1)

/-- The first `assert` of `finalizeSchedule` (`src/unnamed/part_004`, lines 897-900):
no transition may retain the UNKNOWN classification. -/
def noUnknownAssertHolds (transitions : List StateTransition) : Bool :=
  (transitions.filter (fun t => t.activeState = ActiveState.UNKNOWN)).length = 0

/-! ### Auxiliary definitions used by the theorems below -/

deriving instance DecidableEq for Except
/-- C2, failing input: a consistent, chronological event stream on which the
reconstructed transition sequence retains two consecutive transitions (at 100 and 105)
closer than the configured minimum state-change duration 10, so that the second
`assert` of `finalizeSchedule` fails.  The issue is created at 0 in an active state;
it becomes inactive at 100; the state field is cleared at 105 (classification UNKNOWN);
it becomes inactive again at 106, active at 107, inactive at 300; the issue was last
updated at 400.  Each event's replacement classification is the classification of the
state it left. -/
def reconstructorFailingEvents : List (StateTransition × ActiveState) :=
  [(⟨100, ActiveState.INACTIVE⟩, ActiveState.ACTIVE),
   (⟨105, ActiveState.UNKNOWN⟩, ActiveState.INACTIVE),
   (⟨106, ActiveState.INACTIVE⟩, ActiveState.UNKNOWN),
   (⟨107, ActiveState.ACTIVE⟩, ActiveState.INACTIVE),
   (⟨300, ActiveState.INACTIVE⟩, ActiveState.ACTIVE)]
/-- Property asserted by C3 as stated: the new working sequence is obtained from the old
one by removing at most two entries from the tail and then appending at most one new
entry.  On the reversed representation, tail removal is `List.drop` and appending is
cons. -/
def removedAtMostTwoThenPushed (a b : List StateTransition) (nt : StateTransition) :
    Prop :=
  (b = a ∨ b = a.drop 1 ∨ b = a.drop 2) ∨
    (b = nt :: a ∨ b = nt :: a.drop 1 ∨ b = nt :: a.drop 2)

instance (a b : List StateTransition) (nt : StateTransition) :
    Decidable (removedAtMostTwoThenPushed a b nt) := by
  unfold removedAtMostTwoThenPushed
  exact inferInstance
/-- All parent and dependency references of one issue resolve within the issue set. -/
def resolvableRefs (issues : List SchedulableIssue) (iss : SchedulableIssue) : Prop :=
  (∀ p, iss.parent = some p → p ≠ "" → ∃ iss2 ∈ issues, iss2.id = p) ∧
  (∀ d ∈ iss.dependencies, ∃ iss2 ∈ issues, iss2.id = d)
/-- Concrete issue set for the C8 witness: a root issue and a child referencing it. -/
def forestWitnessIssues : List SchedulableIssue :=
  [⟨"r", 1, 0, none, false, [], ""⟩, ⟨"c", 1, 0, some "r", false, [], ""⟩]

/-- An activity that is a past activity of `past` clipped at the division timestamp:
all fields agree except that the end is `min end divisionTimestamp`. -/
def ClippedPast (past : List IssueActivity) (t : Int) (x : IssueActivity) : Prop :=
  ∃ p ∈ past, p.assignee = x.assignee ∧ p.start = x.start ∧ p.isWaiting = x.isWaiting ∧
    p.start < t ∧ x.stop = min p.stop t

/-- An activity stemming from a past activity of `past` that starts before the division
timestamp and reaches it. -/
def PastOrigin (past : List IssueActivity) (t : Int) (x : IssueActivity) : Prop :=
  ∃ p ∈ past, p.assignee = x.assignee ∧ p.start = x.start ∧ p.isWaiting = x.isWaiting ∧
    p.start < t ∧ t ≤ p.stop

/-- An activity whose end is the end of some forecast activity of `sched` ending after
the division timestamp, with matching assignee and waiting flag. -/
def ForecastEnd (sched : List IssueActivity) (t : Int) (x : IssueActivity) : Prop :=
  ∃ s ∈ sched, s.assignee = x.assignee ∧ s.isWaiting = x.isWaiting ∧ t < s.stop ∧
    x.stop = s.stop

/-- Classification of every activity `appendSchedule` can produce for one issue:
a clipped past activity (ends at or before `t`), a clipped forecast activity (starts at
or after `t`), or a merged activity straddling `t` (a past activity reaching `t`,
extended to the end of a forecast activity). -/
def GoodEntry (past sched : List IssueActivity) (t : Int) (x : IssueActivity) : Prop :=
  (x.start < t ∧ x.stop ≤ t ∧ ClippedPast past t x) ∨
  (t ≤ x.start ∧ t < x.stop ∧ ForecastEnd sched t x) ∨
  (x.start < t ∧ t < x.stop ∧ PastOrigin past t x ∧ ForecastEnd sched t x)

/-- Structural invariant of the merge state of `appendSchedule`: indices are valid, the
per-assignee lists index activities of that assignee, and every stored activity is a
`GoodEntry`. -/
def MergeCore (past sched : List IssueActivity) (t : Int) (st : MergeState) : Prop :=
  (∀ i ∈ st.issueActs, i < st.store.length) ∧
  (∀ (a : String), ∀ i ∈ st.byAssignee a,
    i < st.store.length ∧ (st.store.getD i default).assignee = a) ∧
  (∀ x ∈ st.store, GoodEntry past sched t x)

/-- A past activity is covered by the merge state: some indexed activity of the issue
retains its assignee, start and waiting flag, and ends either at `min end t` or, if
merged, at a forecast activity's end after `t`. -/
def coveredPast (sched : List IssueActivity) (t : Int) (st : MergeState)
    (p : IssueActivity) : Prop :=
  ∃ i ∈ st.issueActs, i < st.store.length ∧
    (st.store.getD i default).assignee = p.assignee ∧
    (st.store.getD i default).start = p.start ∧
    (st.store.getD i default).isWaiting = p.isWaiting ∧
    ((st.store.getD i default).stop = min p.stop t ∨
      (min p.stop t = t ∧ t < (st.store.getD i default).stop ∧
        ForecastEnd sched t (st.store.getD i default)))

/-- Replaces the classification of the most recent (head, in reversed representation)
transition, as the unknown-reclassification block of `addStateTransition` does. -/
def setHeadState (l : List StateTransition) (s : ActiveState) : List StateTransition :=
  match l with
  | [] => []
  | x :: rest => { x with activeState := s } :: rest

/-- Adjacent transitions never share a classification (invariant 2 of the source). -/
def altern : List StateTransition → Bool
  | [] => true
  | [_] => true
  | x :: y :: l => (decide (x.activeState ≠ y.activeState)) && altern (y :: l)

/-- Timestamps strictly decrease along the reversed list (invariant 4 of the source). -/
def strictDesc : List StateTransition → Bool
  | [] => true
  | [_] => true
  | x :: y :: l => (decide (y.timestamp < x.timestamp)) && strictDesc (y :: l)

/-- Only the most recent transition may be UNKNOWN (invariant 1 of the source). -/
def noUnknownTail (l : List StateTransition) : Bool :=
  l.tail.all (fun x => decide (x.activeState ≠ ActiveState.UNKNOWN))

/-- The structural invariants of the working transition sequence that
`addStateTransition` maintains unconditionally. -/
def RevInv (a : List StateTransition) : Prop :=
  altern a = true ∧ strictDesc a = true ∧ noUnknownTail a = true

/-- Two output intervals of the grouper with the same waiting flag are disjoint
(one ends at or before the other starts), and when they abut (one's end is exactly the
other's start) their assignee sets differ, so the two could not be merged. -/
def SeparatedMax (x y : MultiAssigneeIssueActivity) : Prop :=
  x.isWaiting = y.isWaiting →
    (x.stop ≤ y.start ∨ y.stop ≤ x.start) ∧
    (x.stop = y.start → x.assignees ≠ y.assignees) ∧
    (y.stop = x.start → x.assignees ≠ y.assignees)

/-- Invariant of the sweep state of one wait-status group `g` of
`groupByIntervalAndWaitStatus`, relative to the result entries `r` carried over from
the previous group: the committed intervals are pairwise separated and maximal; every
committed interval of this group ends at or before the start of the pending activity,
is non-degenerate, and if it ends exactly at the pending activity's start its assignee
set differs from the pending one (it was committed because the set changed); the
pending activity started strictly before the last seen timestamp unless it is the
initial empty sentinel; the count map has pairwise distinct keys; the pending activity
carries this group's waiting flag unless empty; and every committed entry is either
from this group or carried over. -/
def SweepInv (g : Bool) (r : List MultiAssigneeIssueActivity) (st : SweepState) : Prop :=
  List.Pairwise SeparatedMax st.result ∧
  (∀ x ∈ st.result, x.isWaiting = g →
    x.stop ≤ st.lastActivity.start ∧ x.start < x.stop ∧
    (x.stop = st.lastActivity.start → x.assignees ≠ st.lastActivity.assignees)) ∧
  (st.lastActivity.start < st.lastTimestamp ∨
    (st.lastActivity.assignees = [] ∧
      ∀ x ∈ st.result, x.isWaiting = g → x.stop < st.lastTimestamp)) ∧
  (st.counts.map Prod.fst).Nodup ∧
  (st.lastActivity.isWaiting = g ∨ st.lastActivity.assignees = []) ∧
  (∀ x ∈ st.result, x.isWaiting = g ∨ x ∈ r)

/-- A concrete three-issue forest: node 0 (issue A) depends on node 1 (issue B), which
has node 2 (issue C) as its only child; the shape `makeForest` produces for the issue
array [A, B, C]. -/
def forestC4 : Forest :=
  ⟨[(0, { id := "A", remainingEffortMs := 60, dependencies := ["B"] }),
    (1, { id := "B", remainingEffortMs := 60 }),
    (2, { id := "C", remainingEffortMs := 60, parent := some "B" })],
   [none, none, some 1], [[], [2], []], [[1], [], []], [[], [0], []]⟩

/-- Default scheduling options used for the concrete reducer instance. -/
def optsC4 : SchedulingOptionsR :=
  ⟨[], 2400, 3600000, 1, 0⟩

/-! ## Theorems -/

/-- C9: for the two non-waiting activities (a, 0, 2) and (b, 1, 3),
`groupByIntervalAndWaitStatus` returns exactly the three intervals ([a], 0, 1),
([a, b], 1, 2) and ([b], 2, 3), in that order. -/
theorem groupByIntervalAndWaitStatus_two_overlapping_activities :
    groupByIntervalAndWaitStatus
        [⟨"a", 0, 2, false⟩, ⟨"b", 1, 3, false⟩] =
      some [⟨["a"], 0, 1, false⟩, ⟨["a", "b"], 1, 2, false⟩, ⟨["b"], 2, 3, false⟩] := by
  decide

/-- C6: `appendSchedule` returns the human-readable failure value exactly when the
project plan and the schedule have a different number of issues (and otherwise returns a
plan; the embedding is a total function, so no other failure is possible).  The source
operates exclusively on a deep clone of `projectPlan`, so the purity stated by the claim
holds by construction in this embedding. -/
theorem appendSchedule_fails_iff_issue_count_mismatch (projectPlan : ProjectPlan)
    (schedule : Schedule) (divisionTimestamp : Int) :
    (∃ msg, appendSchedule projectPlan schedule divisionTimestamp = Except.error msg) ↔
      projectPlan.issues.length ≠ schedule.length := by
  unfold appendSchedule
  split
  · simp_all
  · simp_all

/-- C2: on the failing event stream above, the reconstructed sequence is
(0, ACTIVE), (100, INACTIVE), (105, ACTIVE), (300, INACTIVE): the transitions at 100 and
105 are only 5 < 10 apart, so the minimum-state-change-duration property claimed by the
spec is violated, and the code's own `assert` in `finalizeSchedule`
(`minStateChangeAssertHolds`) fails. -/
theorem reconstructor_violates_min_state_change_assert :
    reconstructStateTransitions 10 0 reconstructorFailingEvents 400 ActiveState.INACTIVE =
      [⟨0, ActiveState.ACTIVE⟩, ⟨100, ActiveState.INACTIVE⟩,
       ⟨105, ActiveState.ACTIVE⟩, ⟨300, ActiveState.INACTIVE⟩] ∧
    minStateChangeAssertHolds 10
      (reconstructStateTransitions 10 0 reconstructorFailingEvents 400 ActiveState.INACTIVE)
      = false ∧
    ¬ List.Chain' (fun x y => 10 ≤ y.timestamp - x.timestamp)
      (reconstructStateTransitions 10 0 reconstructorFailingEvents 400 ActiveState.INACTIVE) := by
  have h : reconstructStateTransitions 10 0 reconstructorFailingEvents 400
      ActiveState.INACTIVE =
      [⟨0, ActiveState.ACTIVE⟩, ⟨100, ActiveState.INACTIVE⟩,
       ⟨105, ActiveState.ACTIVE⟩, ⟨300, ActiveState.INACTIVE⟩] := by decide
  refine ⟨h, by decide, ?_⟩
  rw [h]
  simp [List.chain'_cons]

/-- C1, counterexample: a past activity (a, 0, 100) clipped to end exactly at the
division timestamp 50 is merged with the forecast activity (a, 40, 80) (whose start is
clipped to 50), producing the single activity (a, 0, 80), which straddles the division
timestamp: it neither ends at or before 50 nor starts at or after 50. -/
theorem appendSchedule_merged_activity_straddles :
    appendSchedule ⟨[⟨"I1", "", [⟨"a", 0, 100, false⟩], 0, ""⟩], []⟩
        [[⟨"a", 40, 80, false⟩]] 50 =
      Except.ok ⟨[⟨"I1", "", [⟨"a", 0, 80, false⟩], 0, ""⟩], []⟩ ∧
    ¬ (∀ x ∈ [(⟨"a", 0, 80, false⟩ : IssueActivity)], x.stop ≤ 50 ∨ 50 ≤ x.start) := by
  decide

/-- C10, counterexample: the past activity (a, 0, 100) starts before the division
timestamp 50, but the returned plan does not contain any activity for assignee a with
start 0 and end `min 100 50 = 50`: the clipped activity was subsequently extended to
end 80 by the merge with the forecast activity (a, 40, 80). -/
theorem appendSchedule_clipped_end_not_preserved :
    appendSchedule ⟨[⟨"I2", "", [⟨"a", 0, 100, false⟩], 0, ""⟩], []⟩
        [[⟨"a", 40, 80, false⟩]] 50 =
      Except.ok ⟨[⟨"I2", "", [⟨"a", 0, 80, false⟩], 0, ""⟩], []⟩ ∧
    ¬ (∃ x ∈ [(⟨"a", 0, 80, false⟩ : IssueActivity)],
        x.assignee = "a" ∧ x.start = 0 ∧ x.stop = min 100 50 ∧ x.isWaiting = false) := by
  decide

/-- C5, counterexample: for a non-waiting activity of a and a waiting activity of b over
the same span, `groupByIntervalAndWaitStatus` returns two intervals covering the same
time span (0, 5): output intervals of different wait status can overlap. -/
theorem groupByIntervalAndWaitStatus_output_overlaps :
    groupByIntervalAndWaitStatus [⟨"a", 0, 5, false⟩, ⟨"b", 0, 5, true⟩] =
      some [⟨["a"], 0, 5, false⟩, ⟨["b"], 0, 5, true⟩] ∧
    max (0 : Int) 0 < min (5 : Int) 5 := by
  decide

/-- C3, counterexample: processing the event (5, INACTIVE) with replacement ACTIVE on
the working sequence [(0, UNKNOWN)] yields [(0, ACTIVE), (5, INACTIVE)] (shown reversed,
most recent first): the entry (0, UNKNOWN) was reclassified in place, so the result is
not obtainable from the previous sequence by tail removals plus at most one append. -/
theorem addStateTransition_reclassifies_in_place :
    addStateTransitionRev 10 [⟨0, ActiveState.UNKNOWN⟩] ⟨5, ActiveState.INACTIVE⟩
        ActiveState.ACTIVE =
      [⟨5, ActiveState.INACTIVE⟩, ⟨0, ActiveState.ACTIVE⟩] ∧
    ¬ removedAtMostTwoThenPushed [⟨0, ActiveState.UNKNOWN⟩]
        (addStateTransitionRev 10 [⟨0, ActiveState.UNKNOWN⟩] ⟨5, ActiveState.INACTIVE⟩
          ActiveState.ACTIVE)
        ⟨5, ActiveState.INACTIVE⟩ := by
  decide

/-- C8, counterexample: `makeForest` fails (the source throws a `TypeError`) on a
single issue whose parent identifier is absent from the input set, contradicting the
claim that it never fails. -/
theorem makeForest_fails_on_absent_parent :
    makeForest [⟨"a", 1, 0, some "b", false, [], ""⟩] = none := by
  decide

/-- Membership in a schedule after `pushActivityAt`: every activity was already present
or is the pushed one. -/
lemma mem_pushActivityAt {schedule : List (List IssueActivity)} {i : Nat}
    {a x : IssueActivity} {acts : List IssueActivity}
    (hacts : acts ∈ pushActivityAt schedule i a) (hx : x ∈ acts) :
    (∃ acts' ∈ schedule, x ∈ acts') ∨ x = a := by
  unfold pushActivityAt at hacts
  rcases List.mem_or_eq_of_mem_set hacts with h | rfl
  · exact .inl ⟨acts, h, hx⟩
  · rcases List.mem_append.1 hx with h | h
    · by_cases hi : i < schedule.length
      · refine .inl ⟨schedule.getD i [], ?_, h⟩
        rw [List.getD_eq_getElem _ _ hi]
        exact List.getElem_mem hi
      · rw [List.getD_eq_default _ _ (by omega)] at h
        simp at h
    · simp at h
      exact .inr h

/-- Fold lemma for `translateSchedule`: any activity in the folded schedule was in the
initial schedule or is the translation of a fragment of one of the folded jobs. -/
lemma foldl_pushActivityAt_mem {β : Type} (g : β → IssueActivity) (i : Nat)
    (Q : IssueActivity → Prop) :
    ∀ (frags : List β) (sched : List (List IssueActivity)),
      (∀ acts ∈ sched, ∀ a ∈ acts, Q a) → (∀ f ∈ frags, Q (g f)) →
      ∀ acts ∈ frags.foldl (fun s f => pushActivityAt s i (g f)) sched, ∀ a ∈ acts, Q a := by
  intro frags
  induction frags with
  | nil => intro sched hs _ acts hacts a ha; exact hs acts hacts a ha
  | cons f fs ih =>
    intro sched hs hf acts hacts a ha
    refine ih (pushActivityAt sched i (g f)) ?_ (fun f' hf' => hf f' (by simp [hf'])) acts
      hacts a ha
    intro acts' hacts' a' ha'
    rcases mem_pushActivityAt hacts' ha' with ⟨acts'', h1, h2⟩ | rfl
    · exact hs acts'' h1 a' h2
    · exact hf f (by simp)

/-- C7: every activity produced by the Schedule Translator (the post-solver half of
`scheduleUnresolved`) converts the start and the end of some solved job fragment to
epoch milliseconds as `ceil(predictionStartTimeMs + ts * resolutionMs * (10080 / minutesPerWeek))`,
where 10080 = 7 * 24 * 60 is the source's `MINUTES_PER_WEEK_REAL_TIME`; both endpoints
use exactly this formula, and the waiting flag is the fragment's. -/
theorem translateSchedule_uses_ceil_conversion (opts : SchedulingOptionsR)
    (jobToIssue machineToContributor : List Nat) (numIssues : Nat)
    (ms : MachineSchedule) :
    (translateSchedule opts jobToIssue machineToContributor numIssues ms).Forall
      (fun acts => acts.Forall (fun a =>
        ∃ j, j < ms.length ∧ ∃ frag ∈ ms.getD j [],
          a.start = Int.ceil ((opts.predictionStartTimeMs : ℚ) +
            frag.start * (opts.resolutionMs : ℚ) *
              ((10080 : ℚ) / (opts.minutesPerWeek : ℚ))) ∧
          a.stop = Int.ceil ((opts.predictionStartTimeMs : ℚ) +
            frag.stop * (opts.resolutionMs : ℚ) *
              ((10080 : ℚ) / (opts.minutesPerWeek : ℚ))) ∧
          a.isWaiting = frag.isWaiting)) := by
  rw [List.forall_iff_forall_mem]
  have outer : ∀ (L : List (Nat × List JobFragment)) (sched : List (List IssueActivity)),
      (∀ p ∈ L, p.1 < ms.length ∧ ms.getD p.1 [] = p.2) →
      (∀ acts ∈ sched, ∀ a ∈ acts, ∃ j, j < ms.length ∧ ∃ frag ∈ ms.getD j [],
        a = activityOfFragment opts machineToContributor frag) →
      ∀ acts ∈ L.foldl (fun schedule p => p.2.foldl (fun schedule frag =>
          pushActivityAt schedule (jobToIssue.getD p.1 0)
            (activityOfFragment opts machineToContributor frag)) schedule) sched,
      ∀ a ∈ acts, ∃ j, j < ms.length ∧ ∃ frag ∈ ms.getD j [],
        a = activityOfFragment opts machineToContributor frag := by
    intro L
    induction L with
    | nil => intro sched _ hs acts hacts a ha; exact hs acts hacts a ha
    | cons p L ih =>
      intro sched hL hs acts hacts a ha
      simp only [List.foldl_cons] at hacts
      refine ih _ (fun p' hp' => hL p' (by simp [hp'])) ?_ acts hacts a ha
      refine foldl_pushActivityAt_mem (activityOfFragment opts machineToContributor)
        (jobToIssue.getD p.1 0) _ p.2 sched hs ?_
      intro f hf
      obtain ⟨h1, h2⟩ := hL p (by simp)
      exact ⟨p.1, h1, f, by rw [h2]; exact hf, rfl⟩
  have key : ∀ acts ∈ translateSchedule opts jobToIssue machineToContributor numIssues ms,
      ∀ a ∈ acts, ∃ j, j < ms.length ∧ ∃ frag ∈ ms.getD j [],
        a = activityOfFragment opts machineToContributor frag := by
    unfold translateSchedule
    refine outer ms.enum (List.replicate numIssues []) ?_ ?_
    · intro p hp
      have h1 := List.mem_enum_iff_getElem?.1 hp
      have h2 : p.1 < ms.length := by
        by_contra hcon
        rw [List.getElem?_eq_none (by omega)] at h1
        exact Option.noConfusion h1
      refine ⟨h2, ?_⟩
      rw [List.getD_eq_getElem _ _ h2]
      rw [List.getElem?_eq_getElem h2] at h1
      exact Option.some.inj h1
    · intro acts hacts a ha
      rw [List.eq_of_mem_replicate hacts] at ha
      simp at ha
  intro acts hacts
  rw [List.forall_iff_forall_mem]
  intro a ha
  obtain ⟨j, hj, frag, hfrag, rfl⟩ := key acts hacts a ha
  refine ⟨j, hj, frag, hfrag, ?_, ?_, rfl⟩
  · show scheduleTimestampToEpochTime opts frag.start = _
    unfold scheduleTimestampToEpochTime
    norm_num [MINUTES_PER_WEEK_REAL_TIME]
  · show scheduleTimestampToEpochTime opts frag.stop = _
    unfold scheduleTimestampToEpochTime
    norm_num [MINUTES_PER_WEEK_REAL_TIME]

/-- Success of `mapOrNone` is success of every application. -/
lemma mapOrNone_isSome {f : α → Option β} : ∀ {l : List α},
    (mapOrNone f l).isSome ↔ ∀ x ∈ l, (f x).isSome := by
  intro l
  induction l with
  | nil => simp [mapOrNone]
  | cons x l ih =>
    simp only [mapOrNone]
    cases hx : f x <;> cases hl : mapOrNone f l <;>
      simp_all [Option.isSome]

/-- Successful `mapOrNone` relates input and output pointwise. -/
lemma mapOrNone_forall2 {f : α → Option β} : ∀ {l : List α} {ys : List β},
    mapOrNone f l = some ys → List.Forall₂ (fun x y => f x = some y) l ys := by
  intro l
  induction l with
  | nil => intro ys h; simp [mapOrNone] at h; simp [← h]
  | cons x l ih =>
    intro ys h
    simp only [mapOrNone] at h
    cases hx : f x <;> rw [hx] at h
    · exact absurd h (by simp)
    · cases hl : mapOrNone f l <;> rw [hl] at h
      · exact absurd h (by simp)
      · cases h
        exact List.Forall₂.cons hx (ih hl)

/-- `jsIssueMapSet` with a fresh id appends. -/
lemma jsIssueMapSet_of_fresh {issue : SchedulableIssue} {idx : Nat} :
    ∀ {m : List (Nat × SchedulableIssue)}, issue.id ∉ m.map (fun e => e.2.id) →
      jsIssueMapSet m idx issue = m ++ [(idx, issue)] := by
  intro m
  induction m with
  | nil => intro _; rfl
  | cons e m ih =>
    intro h
    simp only [List.map_cons, List.mem_cons] at h
    push_neg at h
    have hne : ¬ e.2.id = issue.id := fun hc => h.1 hc.symm
    simp only [jsIssueMapSet, if_neg hne]
    rw [ih h.2]
    simp

/-- With pairwise distinct ids, the `idToNode` map of `makeForest` holds exactly the
input issues, in input order, keyed to their input positions. -/
lemma idToNodeEntries_of_nodup {issues : List SchedulableIssue}
    (h : (issues.map (fun iss => iss.id)).Nodup) : idToNodeEntries issues = issues.enum := by
  have general : ∀ (L : List (Nat × SchedulableIssue)) (m : List (Nat × SchedulableIssue)),
      (L.map (fun e => e.2.id)).Nodup → (∀ p ∈ L, p.2.id ∉ m.map (fun e => e.2.id)) →
      L.foldl (fun m p => jsIssueMapSet m p.1 p.2) m = m ++ L := by
    intro L
    induction L with
    | nil => intro m _ _; simp
    | cons p L ih =>
      intro m hnd hfresh
      simp only [List.foldl_cons]
      rw [jsIssueMapSet_of_fresh (hfresh p (by simp))]
      rw [ih (m ++ [(p.1, p.2)]) (by simp_all [List.nodup_cons]) ?_]
      · simp
      · intro q hq hc
        simp only [List.map_append, List.mem_append] at hc
        rcases hc with hc | hc
        · exact hfresh q (List.mem_cons_of_mem p hq) hc
        · simp only [List.map_cons, List.map_nil, List.mem_singleton] at hc
          simp only [List.map_cons, List.nodup_cons] at hnd
          exact hnd.1 (hc ▸ List.mem_map_of_mem (fun e => e.2.id) hq)
  have hmap : (issues.enum.map (fun e => e.2.id)).Nodup := by
    have heq : issues.enum.map (fun e => e.2.id) = issues.map (fun iss => iss.id) := by
      rw [show (fun (e : Nat × SchedulableIssue) => e.2.id) =
        (fun iss : SchedulableIssue => iss.id) ∘ Prod.snd from rfl]
      rw [← List.map_map, List.enum_map_snd]
    rwa [heq]
  unfold idToNodeEntries
  rw [general issues.enum [] hmap (by simp)]
  simp

/-- C8 (amended): for issue sets with pairwise distinct ids, `makeForest` succeeds if
and only if every issue's parent and dependency references resolve within the set (an
absent reference makes the source throw), and on success a node is a root exactly when
its issue has no parent (no parent id at all, or the empty-string id). -/
theorem makeForest_failure_and_root_characterization (issues : List SchedulableIssue)
    (hnodup : (issues.map (fun iss => iss.id)).Nodup) :
    ((makeForest issues).isSome ↔ ∀ iss ∈ issues, resolvableRefs issues iss) ∧
    (∀ F, makeForest issues = some F → ∀ (i : Nat) (hi : i < issues.length),
      (i ∈ F.roots ↔ ((issues.get ⟨i, hi⟩).parent = none ∨
        (issues.get ⟨i, hi⟩).parent = some ""))) := by
  have hent : idToNodeEntries issues = issues.enum := idToNodeEntries_of_nodup hnodup
  have hmem : ∀ e ∈ issues.enum, e.2 ∈ issues := by
    intro e he
    have h2 := List.mem_map_of_mem Prod.snd he
    rwa [List.enum_map_snd] at h2
  have hmem2 : ∀ iss ∈ issues, ∃ e ∈ issues.enum, e.2 = iss := by
    intro iss hiss
    have h2 : iss ∈ issues.enum.map Prod.snd := by rw [List.enum_map_snd]; exact hiss
    obtain ⟨e, he, h3⟩ := List.mem_map.1 h2
    exact ⟨e, he, h3⟩
  have hfind : ∀ (p : String), ((issues.enum.findIdx? (fun e' => e'.2.id = p)).isSome ↔
      ∃ iss2 ∈ issues, iss2.id = p) := by
    intro p
    rw [List.findIdx?_isSome, List.any_eq_true]
    constructor
    · rintro ⟨e, he, hp⟩
      exact ⟨e.2, hmem e he, by simpa using hp⟩
    · rintro ⟨iss2, hiss2, hp⟩
      obtain ⟨e, he, rfl⟩ := hmem2 iss2 hiss2
      exact ⟨e, he, by simpa using hp⟩
  have hform : ∀ e ∈ issues.enum, ((resolveParentRef issues.enum e.2).isSome ↔
      (∀ p, e.2.parent = some p → p ≠ "" → ∃ iss2 ∈ issues, iss2.id = p)) := by
    intro e _
    cases hp : e.2.parent with
    | none => simp [resolveParentRef, hp]
    | some p =>
      by_cases hpe : p = ""
      · subst hpe
        simp [resolveParentRef, hp]
      · simp only [resolveParentRef, hp, if_neg hpe]
        rw [show (Option.map some
            (issues.enum.findIdx? (fun e' => e'.2.id = p))).isSome
            = (issues.enum.findIdx? (fun e' => e'.2.id = p)).isSome by
          cases issues.enum.findIdx? (fun e' => e'.2.id = p) <;> rfl]
        rw [hfind p]
        constructor
        · intro hex q hq hqe
          cases Option.some.inj hq
          exact hex
        · intro hall
          exact hall p rfl hpe
  have hred : makeForest issues =
      (match mapOrNone (fun e => resolveParentRef issues.enum e.2) issues.enum,
          mapOrNone (fun e => mapOrNone
            (fun dependency => issues.enum.findIdx? (fun e' => e'.2.id = dependency))
            e.2.dependencies) issues.enum with
        | some parentRefs, some depRefs =>
          some ⟨issues.enum, parentRefs,
            (List.range issues.enum.length).map
              (fun j => ((List.range issues.enum.length).filter
                (fun i => parentRefs.getD i none = some j))),
            depRefs,
            (List.range issues.enum.length).map
              (fun j => ((List.range issues.enum.length).flatMap
                (fun i => ((depRefs.getD i []).filter (fun d => d = j)).map (fun _ => i))))⟩
        | _, _ => none) := by
    simp only [makeForest]
    rw [hent]
  rw [hred]
  constructor
  · cases hpr : mapOrNone (fun e => resolveParentRef issues.enum e.2) issues.enum with
    | none =>
      refine iff_of_false (by simp) (fun hres => ?_)
      have h1 : (mapOrNone (fun e => resolveParentRef issues.enum e.2) issues.enum).isSome := by
        rw [mapOrNone_isSome]
        intro e he
        exact (hform e he).2 (fun p hp hpe => (hres e.2 (hmem e he)).1 p hp hpe)
      rw [hpr] at h1
      simp at h1
    | some parentRefs =>
      cases hdr : mapOrNone (fun e => mapOrNone (fun dependency =>
          issues.enum.findIdx? (fun e' => e'.2.id = dependency)) e.2.dependencies)
          issues.enum with
      | none =>
        refine iff_of_false (by simp) (fun hres => ?_)
        have h2 : (mapOrNone (fun e => mapOrNone (fun dependency =>
            issues.enum.findIdx? (fun e' => e'.2.id = dependency)) e.2.dependencies)
            issues.enum).isSome := by
          rw [mapOrNone_isSome]
          intro e he
          rw [mapOrNone_isSome]
          intro d hd
          exact (hfind d).2 ((hres e.2 (hmem e he)).2 d hd)
        rw [hdr] at h2
        simp at h2
      | some depRefs =>
        refine iff_of_true (by simp) ?_
        intro iss hiss
        obtain ⟨e, he, rfl⟩ := hmem2 iss hiss
        constructor
        · have hx : (mapOrNone (fun e => resolveParentRef issues.enum e.2)
              issues.enum).isSome := by
            rw [hpr]; rfl
          exact (hform e he).1 (mapOrNone_isSome.1 hx e he)
        · intro d hd
          have hx : (mapOrNone (fun e => mapOrNone (fun dependency =>
              issues.enum.findIdx? (fun e' => e'.2.id = dependency)) e.2.dependencies)
              issues.enum).isSome := by
            rw [hdr]; rfl
          have h1 : (mapOrNone (fun dependency =>
              issues.enum.findIdx? (fun e' => e'.2.id = dependency)) e.2.dependencies).isSome :=
            mapOrNone_isSome.1 hx e he
          exact (hfind d).1 (mapOrNone_isSome.1 h1 d hd)
  · intro F hF i hi
    cases hpr : mapOrNone (fun e => resolveParentRef issues.enum e.2) issues.enum with
    | none => rw [hpr] at hF; exact absurd hF (by simp)
    | some parentRefs =>
      cases hdr : mapOrNone (fun e => mapOrNone (fun dependency =>
          issues.enum.findIdx? (fun e' => e'.2.id = dependency)) e.2.dependencies)
          issues.enum with
      | none => rw [hpr, hdr] at hF; exact absurd hF (by simp)
      | some depRefs =>
        rw [hpr, hdr] at hF
        have hFval := (Option.some.inj hF).symm
        subst hFval
        have hf2 := mapOrNone_forall2 hpr
        rw [List.forall₂_iff_get] at hf2
        obtain ⟨hlen, hget⟩ := hf2
        have hlen2 : issues.enum.length = issues.length := by simp
        have hi2 : i < issues.enum.length := by omega
        have hi3 : i < parentRefs.length := by omega
        have hgeti := hget i hi2 hi3
        have henumget : issues.enum.get ⟨i, hi2⟩ = (i, issues.get ⟨i, hi⟩) := by
          simp [List.getElem_enum]
        rw [henumget] at hgeti
        unfold Forest.roots
        have hgetd : parentRefs.getD i none = parentRefs.get ⟨i, hi3⟩ := by
          rw [List.getD_eq_getElem _ _ hi3, List.get_eq_getElem]
        have hroots : (i ∈ (List.range (issues.enum.length)).filter
            (fun j => decide (parentRefs.getD j none = none))) ↔
            parentRefs.get ⟨i, hi3⟩ = none := by
          rw [List.mem_filter, List.mem_range]
          rw [hgetd]
          constructor
          · intro hx
            exact of_decide_eq_true hx.2
          · intro hx
            exact ⟨hi2, decide_eq_true hx⟩
        refine Iff.trans (by exact hroots) ?_
        cases hp : (issues.get ⟨i, hi⟩).parent with
        | none =>
          simp only [resolveParentRef, hp] at hgeti
          rw [(Option.some.inj hgeti).symm]
          simp
        | some p =>
          by_cases hpe : p = ""
          · subst hpe
            simp only [resolveParentRef, hp, if_pos rfl] at hgeti
            rw [(Option.some.inj hgeti).symm]
            simp [hp]
          · simp only [resolveParentRef, hp, if_neg hpe] at hgeti
            cases hfi : issues.enum.findIdx? (fun e' => e'.2.id = p) with
            | none => rw [hfi] at hgeti; exact absurd hgeti (by simp)
            | some j =>
              rw [hfi] at hgeti
              rw [(Option.some.inj (show some (some j) = some (parentRefs.get ⟨i, hi3⟩)
                from hgeti)).symm]
              simp [hp, hpe]

/-- Witness for C8's amended theorem at a concrete two-issue set with distinct ids. -/
theorem makeForest_failure_and_root_characterization_witness :
    ((forestWitnessIssues.map (fun iss => iss.id)).Nodup) ∧
    (((makeForest forestWitnessIssues).isSome ↔
        ∀ iss ∈ forestWitnessIssues, resolvableRefs forestWitnessIssues iss) ∧
      (∀ F, makeForest forestWitnessIssues = some F →
        ∀ (i : Nat) (hi : i < forestWitnessIssues.length),
          (i ∈ F.roots ↔ ((forestWitnessIssues.get ⟨i, hi⟩).parent = none ∨
            (forestWitnessIssues.get ⟨i, hi⟩).parent = some "")))) :=
  ⟨by decide, makeForest_failure_and_root_characterization forestWitnessIssues (by decide)⟩

/-- Reading below the appended element is unchanged. -/
lemma getD_append_lt {l l' : List IssueActivity} {i : Nat} (h : i < l.length) :
    (l ++ l').getD i default = l.getD i default := by
  rw [List.getD_eq_getElem _ _ (by simp; omega), List.getD_eq_getElem _ _ h]
  exact List.getElem_append_left h

/-- Reading the appended element. -/
lemma getD_append_self {l : List IssueActivity} {x : IssueActivity} :
    (l ++ [x]).getD l.length default = x := by
  rw [List.getD_eq_getElem _ _ (by simp)]
  rw [List.getElem_append_right (by omega)]
  simp

/-- Reading an updated store at the updated position. -/
lemma getD_set_self {l : List IssueActivity} {j : Nat} {x : IssueActivity}
    (h : j < l.length) : (l.set j x).getD j default = x := by
  rw [List.getD_eq_getElem _ _ (by simp [h])]
  exact List.getElem_set_self _

/-- Reading an updated store elsewhere. -/
lemma getD_set_ne {l : List IssueActivity} {i j : Nat} {x : IssueActivity}
    (h : j ≠ i) : (l.set j x).getD i default = l.getD i default := by
  by_cases hi : i < l.length
  · rw [List.getD_eq_getElem _ _ (by simp [hi]), List.getD_eq_getElem _ _ hi]
    exact List.getElem_set_ne h _
  · rw [List.getD_eq_default _ _ (by simp; omega), List.getD_eq_default _ _ (by omega)]

/-- `stableInsert` permutes cons. -/
lemma stableInsert_perm {α : Type} (le : α → α → Bool) (x : α) :
    ∀ (l : List α), (stableInsert le x l).Perm (x :: l) := by
  intro l
  induction l with
  | nil => simp [stableInsert]
  | cons y l ih =>
    simp only [stableInsert]
    split
    · exact List.Perm.refl _
    · exact ((ih.cons y).trans (List.Perm.swap x y l))

/-- `stableSort` is a permutation of its input. -/
lemma stableSort_perm {α : Type} (le : α → α → Bool) :
    ∀ (l : List α), (stableSort le l).Perm l := by
  intro l
  induction l with
  | nil => simp [stableSort]
  | cons x l ih => exact (stableInsert_perm le x (stableSort le l)).trans (ih.cons x)

/-- Membership is invariant under `stableSort`. -/
lemma mem_stableSort {α : Type} {le : α → α → Bool} {x : α} {l : List α} :
    x ∈ stableSort le l ↔ x ∈ l :=
  (stableSort_perm le l).mem_iff

/-- Processing a past activity preserves the merge-state invariant. -/
lemma mergeCore_addPast {past sched : List IssueActivity} {t : Int} {st : MergeState}
    {p : IssueActivity} (hp : p ∈ past) (h : MergeCore past sched t st) :
    MergeCore past sched t (addPastActivity t st p) := by
  obtain ⟨hacts, hby, hgood⟩ := h
  unfold addPastActivity
  split
  · refine ⟨?_, ?_, ?_⟩
    · intro i hi
      simp only [List.mem_append, List.mem_singleton] at hi
      simp only [List.length_append, List.length_singleton]
      rcases hi with hi | rfl
      · have := hacts i hi; omega
      · omega
    · intro a i hi
      simp only at hi
      by_cases ha : a = p.assignee
      · rw [if_pos ha] at hi
        simp only [List.mem_append, List.mem_singleton] at hi
        rcases hi with hi | rfl
        · obtain ⟨h1, h2⟩ := hby a i hi
          refine ⟨by simp; omega, ?_⟩
          rw [getD_append_lt h1]
          exact h2
        · refine ⟨by simp, ?_⟩
          rw [getD_append_self]
          exact ha.symm
      · rw [if_neg ha] at hi
        obtain ⟨h1, h2⟩ := hby a i hi
        refine ⟨by simp; omega, ?_⟩
        rw [getD_append_lt h1]
        exact h2
    · intro x hx
      simp only [List.mem_append, List.mem_singleton] at hx
      rcases hx with hx | rfl
      · exact hgood x hx
      · refine Or.inl ⟨‹p.start < t›, min_le_right _ _, p, hp, rfl, rfl, rfl, ‹p.start < t›, rfl⟩
  · exact ⟨hacts, hby, hgood⟩

/-- Processing a past activity preserves coverage of previously covered activities. -/
lemma coveredPast_addPast {sched : List IssueActivity} {t : Int} {st : MergeState}
    {p q : IssueActivity} (h : coveredPast sched t st q) :
    coveredPast sched t (addPastActivity t st p) q := by
  obtain ⟨i, hi, hlen, h1, h2, h3, h4⟩ := h
  unfold addPastActivity
  split
  · exact ⟨i, by simp [hi], by simp; omega, by rw [getD_append_lt hlen]; exact h1,
      by rw [getD_append_lt hlen]; exact h2, by rw [getD_append_lt hlen]; exact h3,
      by rw [getD_append_lt hlen]; exact h4⟩
  · exact ⟨i, hi, hlen, h1, h2, h3, h4⟩

/-- Processing a past activity that starts before the division timestamp covers it. -/
lemma coveredPast_addPast_self {sched : List IssueActivity} {t : Int} {st : MergeState}
    {p : IssueActivity} (hlt : p.start < t) :
    coveredPast sched t (addPastActivity t st p) p := by
  unfold addPastActivity
  rw [if_pos hlt]
  exact ⟨st.store.length, by simp, by simp, by rw [getD_append_self],
    by rw [getD_append_self], by rw [getD_append_self],
    by rw [getD_append_self]; exact Or.inl rfl⟩

/-- The last element of a list is a member. -/
lemma mem_of_getLast?_eq_some {l : List Nat} {j : Nat} (h : l.getLast? = some j) : j ∈ l := by
  induction l with
  | nil => simp [List.getLast?] at h
  | cons x l ih =>
    cases l with
    | nil => simp_all [List.getLast?]
    | cons y l =>
      rw [List.getLast?_cons_cons] at h
      exact List.mem_cons_of_mem x (ih h)

/-- Appending the clipped forecast activity preserves the merge-state invariant. -/
lemma mergeCore_pushNew {past sched : List IssueActivity} {t : Int} {st : MergeState}
    {s : IssueActivity} (hs : s ∈ sched) (hstop : t < s.stop) (h : MergeCore past sched t st) :
    MergeCore past sched t
      ⟨st.store ++ [{ s with start := max s.start t }],
       st.issueActs ++ [st.store.length],
       fun b => if b = s.assignee then st.byAssignee b ++ [st.store.length]
         else st.byAssignee b⟩ := by
  obtain ⟨hacts, hby, hgood⟩ := h
  refine ⟨?_, ?_, ?_⟩
  · intro i hi
    simp only [List.mem_append, List.mem_singleton] at hi
    simp only [List.length_append, List.length_singleton]
    rcases hi with hi | rfl
    · have := hacts i hi; omega
    · omega
  · intro a i hi
    simp only at hi
    by_cases ha : a = s.assignee
    · rw [if_pos ha] at hi
      simp only [List.mem_append, List.mem_singleton] at hi
      rcases hi with hi | rfl
      · obtain ⟨h1, h2⟩ := hby a i hi
        exact ⟨by simp; omega, by rw [getD_append_lt h1]; exact h2⟩
      · exact ⟨by simp, by rw [getD_append_self]; exact ha.symm⟩
    · rw [if_neg ha] at hi
      obtain ⟨h1, h2⟩ := hby a i hi
      exact ⟨by simp; omega, by rw [getD_append_lt h1]; exact h2⟩
  · intro x hx
    simp only [List.mem_append, List.mem_singleton] at hx
    rcases hx with hx | rfl
    · exact hgood x hx
    · exact Or.inr (Or.inl ⟨le_max_right _ _, hstop, s, hs, rfl, rfl, hstop, rfl⟩)

/-- Appending the clipped forecast activity preserves coverage. -/
lemma coveredPast_pushNew {sched : List IssueActivity} {t : Int} {st : MergeState}
    {s q : IssueActivity} (h : coveredPast sched t st q) :
    coveredPast sched t
      ⟨st.store ++ [{ s with start := max s.start t }],
       st.issueActs ++ [st.store.length],
       fun b => if b = s.assignee then st.byAssignee b ++ [st.store.length]
         else st.byAssignee b⟩ q := by
  obtain ⟨i, hi, hlen, h1, h2, h3, h4⟩ := h
  exact ⟨i, by simp [hi], by simp; omega, by rw [getD_append_lt hlen]; exact h1,
    by rw [getD_append_lt hlen]; exact h2, by rw [getD_append_lt hlen]; exact h3,
    by rw [getD_append_lt hlen]; exact h4⟩

/-- Extending the last same-assignee activity in place preserves the merge-state
invariant. -/
lemma mergeCore_mergeUpd {past sched : List IssueActivity} {t : Int} {st : MergeState}
    {s : IssueActivity} {j : Nat} (hs : s ∈ sched) (hstop : t < s.stop)
    (hj : (st.byAssignee s.assignee).getLast? = some j)
    (hcond : (st.store.getD j default).stop = max s.start t ∧
      (st.store.getD j default).isWaiting = s.isWaiting)
    (h : MergeCore past sched t st) :
    MergeCore past sched t
      { st with
        store := st.store.set j ({ st.store.getD j default with stop := s.stop }) } := by
  obtain ⟨hacts, hby, hgood⟩ := h
  obtain ⟨hjlen, hjassignee⟩ := hby s.assignee j (mem_of_getLast?_eq_some hj)
  refine ⟨?_, ?_, ?_⟩
  · intro i hi
    dsimp only at hi ⊢
    simp only [List.length_set]
    exact hacts i hi
  · intro a i hi
    dsimp only at hi ⊢
    obtain ⟨h1, h2⟩ := hby a i hi
    refine ⟨by simp [h1], ?_⟩
    by_cases hij : j = i
    · subst hij
      rw [getD_set_self hjlen]
      exact h2
    · rw [getD_set_ne hij]
      exact h2
  · intro x hx
    dsimp only at hx
    rcases List.mem_or_eq_of_mem_set hx with hx | rfl
    · exact hgood x hx
    · have hEmem : st.store.getD j default ∈ st.store := by
        rw [List.getD_eq_getElem _ _ hjlen]
        exact List.getElem_mem hjlen
      have hEgood := hgood _ hEmem
      have hge : t ≤ max s.start t := le_max_right _ _
      rcases hEgood with ⟨h1, h2, p, hpmem, e1, e2, e3, e4, e5⟩ |
        ⟨h1, h2, hfe⟩ | ⟨h1, h2, hpo, hfe⟩
      · refine Or.inr (Or.inr ⟨h1, hstop, ⟨p, hpmem, e1, e2, e3, e4, ?_⟩,
          s, hs, hjassignee.symm, hcond.2.symm, hstop, rfl⟩)
        have hstopt : (st.store.getD j default).stop = t :=
          le_antisymm h2 (hcond.1 ▸ hge)
        have : min p.stop t = t := by rw [← e5, hstopt]
        omega
      · exact Or.inr (Or.inl ⟨h1, hstop, s, hs, hjassignee.symm, hcond.2.symm, hstop, rfl⟩)
      · exact Or.inr (Or.inr ⟨h1, hstop, hpo, s, hs, hjassignee.symm, hcond.2.symm,
          hstop, rfl⟩)

/-- Extending the last same-assignee activity in place preserves coverage. -/
lemma coveredPast_mergeUpd {sched : List IssueActivity} {t : Int} {st : MergeState}
    {s q : IssueActivity} {j : Nat} (hs : s ∈ sched) (hstop : t < s.stop)
    (hj : (st.byAssignee s.assignee).getLast? = some j)
    (hcond : (st.store.getD j default).stop = max s.start t ∧
      (st.store.getD j default).isWaiting = s.isWaiting)
    (hcore : MergeCore past sched t st)
    (h : coveredPast sched t st q) :
    coveredPast sched t
      { st with
        store := st.store.set j ({ st.store.getD j default with stop := s.stop }) } q := by
  obtain ⟨hacts, hby, hgood⟩ := hcore
  obtain ⟨hjlen, hjassignee⟩ := hby s.assignee j (mem_of_getLast?_eq_some hj)
  obtain ⟨i, hi, hlen, h1, h2, h3, h4⟩ := h
  dsimp only [coveredPast]
  by_cases hij : i = j
  · subst hij
    refine ⟨i, hi, by simp [hlen], ?_, ?_, ?_, ?_⟩ <;> rw [getD_set_self hlen]
    · exact h1
    · exact h2
    · exact h3
    · have hge : t ≤ max s.start t := le_max_right _ _
      rcases h4 with h4 | ⟨h4a, h4b, h4c⟩
      · have hstopt : (st.store.getD i default).stop = t ∧ min q.stop t = t := by
          constructor
          · have : min q.stop t ≤ t := min_le_right _ _
            omega
          · have : min q.stop t ≤ t := min_le_right _ _
            omega
        exact Or.inr ⟨hstopt.2, hstop, s, hs, hjassignee.symm, hcond.2.symm, hstop, rfl⟩
      · exact Or.inr ⟨h4a, hstop, s, hs, hjassignee.symm, hcond.2.symm, hstop, rfl⟩
  · refine ⟨i, hi, by simp [hlen], ?_, ?_, ?_, ?_⟩ <;>
      rw [getD_set_ne (fun hc => hij hc.symm)]
    · exact h1
    · exact h2
    · exact h3
    · exact h4

/-- Processing a forecast activity preserves the merge-state invariant. -/
lemma mergeCore_addScheduled {past sched : List IssueActivity} {t : Int} {st : MergeState}
    {s : IssueActivity} (hs : s ∈ sched) (h : MergeCore past sched t st) :
    MergeCore past sched t (addScheduledActivity t st s) := by
  unfold addScheduledActivity
  split
  · exact h
  case isFalse hstop =>
    have hstop' : t < s.stop := by omega
    dsimp only
    cases hj : (st.byAssignee s.assignee).getLast? with
    | none => exact mergeCore_pushNew hs hstop' h
    | some j =>
      dsimp only
      split
      next hcond => exact mergeCore_mergeUpd hs hstop' hj ⟨hcond.1, hcond.2⟩ h
      next hcond => exact mergeCore_pushNew hs hstop' h

/-- Processing a forecast activity preserves coverage of past activities. -/
lemma coveredPast_addScheduled {past sched : List IssueActivity} {t : Int}
    {st : MergeState} {s q : IssueActivity} (hs : s ∈ sched)
    (hcore : MergeCore past sched t st) (h : coveredPast sched t st q) :
    coveredPast sched t (addScheduledActivity t st s) q := by
  unfold addScheduledActivity
  split
  · exact h
  case isFalse hstop =>
    have hstop' : t < s.stop := by omega
    dsimp only
    cases hj : (st.byAssignee s.assignee).getLast? with
    | none => exact coveredPast_pushNew h
    | some j =>
      dsimp only
      split
      next hcond =>
        exact coveredPast_mergeUpd hs hstop' hj ⟨hcond.1, hcond.2⟩ hcore h
      next hcond => exact coveredPast_pushNew h

/-- Folding the past activities establishes the invariant and coverage. -/
lemma phase1_fold {past sched : List IssueActivity} {t : Int} :
    ∀ (l : List IssueActivity) (st : MergeState), (∀ p ∈ l, p ∈ past) →
      MergeCore past sched t st →
      MergeCore past sched t (l.foldl (addPastActivity t) st) ∧
      (∀ q, coveredPast sched t st q →
        coveredPast sched t (l.foldl (addPastActivity t) st) q) ∧
      (∀ p ∈ l, p.start < t → coveredPast sched t (l.foldl (addPastActivity t) st) p) := by
  intro l
  induction l with
  | nil => exact fun st _ h => ⟨h, fun q hq => hq, by simp⟩
  | cons p l ih =>
    intro st hsub h
    simp only [List.foldl_cons]
    obtain ⟨ih1, ih2, ih3⟩ := ih (addPastActivity t st p)
      (fun p' hp' => hsub p' (List.mem_cons_of_mem p hp'))
      (mergeCore_addPast (hsub p (by simp)) h)
    refine ⟨ih1, fun q hq => ih2 q (coveredPast_addPast hq), ?_⟩
    intro p' hp' hlt
    rcases List.mem_cons.1 hp' with rfl | hp'
    · exact ih2 p' (coveredPast_addPast_self hlt)
    · exact ih3 p' hp' hlt

/-- Folding the forecast activities preserves the invariant and coverage. -/
lemma phase2_fold {past sched : List IssueActivity} {t : Int} :
    ∀ (l : List IssueActivity) (st : MergeState), (∀ s ∈ l, s ∈ sched) →
      MergeCore past sched t st →
      MergeCore past sched t (l.foldl (addScheduledActivity t) st) ∧
      (∀ q, coveredPast sched t st q →
        coveredPast sched t (l.foldl (addScheduledActivity t) st) q) := by
  intro l
  induction l with
  | nil => exact fun st _ h => ⟨h, fun q hq => hq⟩
  | cons s l ih =>
    intro st hsub h
    simp only [List.foldl_cons]
    obtain ⟨ih1, ih2⟩ := ih (addScheduledActivity t st s)
      (fun s' hs' => hsub s' (List.mem_cons_of_mem s hs'))
      (mergeCore_addScheduled (hsub s (by simp)) h)
    exact ⟨ih1, fun q hq => ih2 q (coveredPast_addScheduled (hsub s (by simp)) h hq)⟩

/-- Every activity produced for one issue by `appendSchedule` is a `GoodEntry`. -/
lemma appendScheduleIssue_goodEntries (t : Int) (issue : YouTrackIssue)
    (sched : List IssueActivity) :
    ∀ x ∈ (appendScheduleIssue t issue sched).issueActivities,
      GoodEntry issue.issueActivities sched t x := by
  intro x hx
  unfold appendScheduleIssue at hx
  dsimp only at hx
  rw [mem_stableSort] at hx
  obtain ⟨i, hi, rfl⟩ := List.mem_map.1 hx
  have h0 : MergeCore issue.issueActivities sched t ⟨[], [], fun _ => []⟩ :=
    ⟨by simp, by simp, by simp⟩
  obtain ⟨h1, h2, h3⟩ := @phase1_fold issue.issueActivities sched t issue.issueActivities
    ⟨[], [], fun _ => []⟩ (fun p hp => hp) h0
  obtain ⟨g1, g2⟩ := @phase2_fold issue.issueActivities sched t sched _
    (fun s hs => hs) h1
  obtain ⟨hacts, hby, hgood⟩ := g1
  have hilen := hacts i hi
  refine hgood _ ?_
  rw [List.getD_eq_getElem _ _ hilen]
  exact List.getElem_mem hilen

/-- Every past activity starting before the division timestamp survives per issue, with
its end clipped or merged. -/
lemma appendScheduleIssue_pastCovered (t : Int) (issue : YouTrackIssue)
    (sched : List IssueActivity) :
    ∀ p ∈ issue.issueActivities, p.start < t →
      ∃ x ∈ (appendScheduleIssue t issue sched).issueActivities,
        x.assignee = p.assignee ∧ x.start = p.start ∧ x.isWaiting = p.isWaiting ∧
        (x.stop = min p.stop t ∨
          (min p.stop t = t ∧ t < x.stop ∧ ForecastEnd sched t x)) := by
  intro p hp hlt
  have h0 : MergeCore issue.issueActivities sched t ⟨[], [], fun _ => []⟩ :=
    ⟨by simp, by simp, by simp⟩
  obtain ⟨h1, h2, h3⟩ := @phase1_fold issue.issueActivities sched t issue.issueActivities
    ⟨[], [], fun _ => []⟩ (fun p' hp' => hp') h0
  obtain ⟨g1, g2⟩ := @phase2_fold issue.issueActivities sched t sched _
    (fun s hs => hs) h1
  obtain ⟨i, hi, hlen, e1, e2, e3, e4⟩ := g2 p (h3 p hp hlt)
  refine ⟨_, ?_, e1, e2, e3, e4⟩
  unfold appendScheduleIssue
  dsimp only
  rw [mem_stableSort]
  exact List.mem_map.2 ⟨i, hi, rfl⟩

/-- C1 (amended): in a successfully composed plan, every activity of issue `i` either
ends at or before the division timestamp (clipped past side), starts at or after it
(clipped forecast side), or is a merged activity straddling it: it starts strictly
before and ends strictly after the division timestamp, stems from a past activity of
that issue reaching the division timestamp, and ends at the end of a forecast activity
of that issue. -/
theorem appendSchedule_no_straddle_except_merged (projectPlan : ProjectPlan)
    (schedule : Schedule) (t : Int) (plan' : ProjectPlan)
    (h : appendSchedule projectPlan schedule t = Except.ok plan')
    (i : Nat) (hi1 : i < plan'.issues.length) (hi2 : i < projectPlan.issues.length)
    (hi3 : i < schedule.length) :
    ∀ x ∈ (plan'.issues.get ⟨i, hi1⟩).issueActivities,
      x.stop ≤ t ∨ t ≤ x.start ∨
        (x.start < t ∧ t < x.stop ∧
          PastOrigin (projectPlan.issues.get ⟨i, hi2⟩).issueActivities t x ∧
          ForecastEnd (schedule.get ⟨i, hi3⟩) t x) := by
  unfold appendSchedule at h
  split at h
  · exact absurd h (by simp)
  · have hrec := Except.ok.inj h
    have hissues : plan'.issues = (projectPlan.issues.zip schedule).map
        (fun p => appendScheduleIssue t p.1 p.2) := by rw [← hrec]
    have hkey : plan'.issues.get ⟨i, hi1⟩ =
        appendScheduleIssue t (projectPlan.issues.get ⟨i, hi2⟩) (schedule.get ⟨i, hi3⟩) := by
      rw [List.get_eq_getElem, List.getElem_of_eq hissues hi1, List.getElem_map,
        List.getElem_zip]
      simp
    intro x hx
    rw [hkey] at hx
    rcases appendScheduleIssue_goodEntries t _ _ x hx with
      ⟨h1, h2, _⟩ | ⟨h1, h2, _⟩ | ⟨h1, h2, h3, h4⟩
    · exact Or.inl h2
    · exact Or.inr (Or.inl h1)
    · exact Or.inr (Or.inr ⟨h1, h2, h3, h4⟩)

/-- Witness for C1's amended theorem at the concrete merge input. -/
theorem appendSchedule_no_straddle_except_merged_witness :
    (appendSchedule ⟨[⟨"I1", "", [⟨"a", 0, 100, false⟩], 0, ""⟩], []⟩
        [[⟨"a", 40, 80, false⟩]] 50 =
      Except.ok ⟨[⟨"I1", "", [⟨"a", 0, 80, false⟩], 0, ""⟩], []⟩) ∧
    (∀ x ∈ ((⟨[⟨"I1", "", [⟨"a", 0, 80, false⟩], 0, ""⟩], []⟩ : ProjectPlan).issues.get
        ⟨0, by decide⟩).issueActivities,
      x.stop ≤ 50 ∨ (50 : Int) ≤ x.start ∨
        (x.start < 50 ∧ 50 < x.stop ∧
          PastOrigin ((⟨[⟨"I1", "", [⟨"a", 0, 100, false⟩], 0, ""⟩], []⟩ : ProjectPlan).issues.get
            ⟨0, by decide⟩).issueActivities 50 x ∧
          ForecastEnd (([[⟨"a", 40, 80, false⟩]] : Schedule).get ⟨0, by decide⟩) 50 x)) :=
  ⟨by decide, appendSchedule_no_straddle_except_merged _ _ 50 _ (by decide) 0
    (by decide) (by decide) (by decide)⟩

/-- C10 (amended): every past activity of issue `i` that starts strictly before the
division timestamp appears in the successfully composed plan with unchanged assignee,
start and waiting flag, and its end is `min end t` - in particular an open-ended
activity is closed at `t` - unless the clipped end equals `t` and the activity was
merged with forecast activities, in which case its end is a forecast activity's end
beyond `t`. -/
theorem appendSchedule_clips_past_activities (projectPlan : ProjectPlan)
    (schedule : Schedule) (t : Int) (plan' : ProjectPlan)
    (h : appendSchedule projectPlan schedule t = Except.ok plan')
    (i : Nat) (hi1 : i < plan'.issues.length) (hi2 : i < projectPlan.issues.length)
    (hi3 : i < schedule.length) :
    ∀ p ∈ (projectPlan.issues.get ⟨i, hi2⟩).issueActivities, p.start < t →
      ∃ x ∈ (plan'.issues.get ⟨i, hi1⟩).issueActivities,
        x.assignee = p.assignee ∧ x.start = p.start ∧ x.isWaiting = p.isWaiting ∧
        (x.stop = min p.stop t ∨
          (min p.stop t = t ∧ t < x.stop ∧
            ForecastEnd (schedule.get ⟨i, hi3⟩) t x)) := by
  unfold appendSchedule at h
  split at h
  · exact absurd h (by simp)
  · have hrec := Except.ok.inj h
    have hissues : plan'.issues = (projectPlan.issues.zip schedule).map
        (fun p => appendScheduleIssue t p.1 p.2) := by rw [← hrec]
    have hkey : plan'.issues.get ⟨i, hi1⟩ =
        appendScheduleIssue t (projectPlan.issues.get ⟨i, hi2⟩) (schedule.get ⟨i, hi3⟩) := by
      rw [List.get_eq_getElem, List.getElem_of_eq hissues hi1, List.getElem_map,
        List.getElem_zip]
      simp
    intro p hp hlt
    rw [hkey]
    exact appendScheduleIssue_pastCovered t _ _ p hp hlt

/-- Witness for C10's amended theorem at the concrete merge input. -/
theorem appendSchedule_clips_past_activities_witness :
    (appendSchedule ⟨[⟨"I2", "", [⟨"a", 0, 100, false⟩], 0, ""⟩], []⟩
        [[⟨"a", 40, 80, false⟩]] 50 =
      Except.ok ⟨[⟨"I2", "", [⟨"a", 0, 80, false⟩], 0, ""⟩], []⟩) ∧
    (∀ p ∈ ((⟨[⟨"I2", "", [⟨"a", 0, 100, false⟩], 0, ""⟩], []⟩ : ProjectPlan).issues.get
        ⟨0, by decide⟩).issueActivities, p.start < 50 →
      ∃ x ∈ ((⟨[⟨"I2", "", [⟨"a", 0, 80, false⟩], 0, ""⟩], []⟩ : ProjectPlan).issues.get
          ⟨0, by decide⟩).issueActivities,
        x.assignee = p.assignee ∧ x.start = p.start ∧ x.isWaiting = p.isWaiting ∧
        (x.stop = min p.stop 50 ∨
          (min p.stop 50 = 50 ∧ (50 : Int) < x.stop ∧
            ForecastEnd (([[⟨"a", 40, 80, false⟩]] : Schedule).get ⟨0, by decide⟩) 50 x))) :=
  ⟨by decide, appendSchedule_clips_past_activities _ _ 50 _ (by decide) 0
    (by decide) (by decide) (by decide)⟩

/-- Unfolding equation for `strictDesc` on two or more elements. -/
lemma strictDesc_cons_cons {x y : StateTransition} {l : List StateTransition} :
    strictDesc (x :: y :: l) = true ↔
      y.timestamp < x.timestamp ∧ strictDesc (y :: l) = true := by
  simp [strictDesc]

/-- Unfolding equation for `altern` on two or more elements. -/
lemma altern_cons_cons {x y : StateTransition} {l : List StateTransition} :
    altern (x :: y :: l) = true ↔
      x.activeState ≠ y.activeState ∧ altern (y :: l) = true := by
  simp [altern]

/-- Case analysis of the tail half of `addStateTransition`: either the sequence is
returned as is or with the new transition pushed (no removal); or a short trailing
inactive phase plus its predecessor are removed (`a.length -= 2`) before an optional
push; or the last entry alone is popped because the new transition is a close ACTIVE
state differing from it. -/
lemma addAfterFix_cases (c : Int) (b : List StateTransition) (nt : StateTransition)
    (hdesc : strictDesc b = true) :
    (addAfterFix c b nt = b ∨ addAfterFix c b nt = nt :: b) ∨
    (∃ x y r, b = x :: y :: r ∧ x.activeState = ActiveState.INACTIVE ∧
      (addAfterFix c b nt = r ∨ addAfterFix c b nt = nt :: r)) ∨
    (∃ x r, b = x :: r ∧ nt.activeState = ActiveState.ACTIVE ∧
      nt.activeState ≠ x.activeState ∧ addAfterFix c b nt = r) := by
  cases b with
  | nil =>
    left
    unfold addAfterFix
    dsimp only
    split
    next => exact Or.inr rfl
    next => exact Or.inl rfl
  | cons x rest =>
    cases rest with
    | nil =>
      unfold addAfterFix
      dsimp only
      split
      next halt => exact Or.inl (Or.inl rfl)
      next halt =>
        split
        next hg2 => exact absurd hg2.1 (by simp)
        next => exact Or.inl (Or.inr rfl)
    | cons y r =>
      obtain ⟨hyx, hdesc'⟩ := strictDesc_cons_cons.1 hdesc
      simp only [addAfterFix]
      by_cases hg1 : x.activeState = ActiveState.INACTIVE ∧
          x.timestamp - y.timestamp < c ∧ c ≤ nt.timestamp - x.timestamp
      · rw [if_pos hg1]
        obtain ⟨hxI, hshort, hfar⟩ := hg1
        cases r with
        | nil =>
          dsimp only
          split
          next => exact Or.inr (Or.inl ⟨x, y, [], rfl, hxI, Or.inr rfl⟩)
          next => exact Or.inr (Or.inl ⟨x, y, [], rfl, hxI, Or.inl rfl⟩)
        | cons z r2 =>
          obtain ⟨hzy, _⟩ := strictDesc_cons_cons.1 hdesc'
          dsimp only
          by_cases halt : nt.activeState = z.activeState
          · rw [if_pos halt]
            exact Or.inr (Or.inl ⟨x, y, z :: r2, rfl, hxI, Or.inl rfl⟩)
          · rw [if_neg halt, if_neg (by
              rintro ⟨-, -, hclose⟩
              omega)]
            exact Or.inr (Or.inl ⟨x, y, z :: r2, rfl, hxI, Or.inr rfl⟩)
      · rw [if_neg hg1]
        dsimp only
        by_cases halt : nt.activeState = x.activeState
        · rw [if_pos halt]
          exact Or.inl (Or.inl rfl)
        · rw [if_neg halt]
          by_cases hg2 : (y :: r) ≠ [] ∧ nt.activeState = ActiveState.ACTIVE ∧
              nt.timestamp - x.timestamp < c
          · rw [if_pos hg2]
            exact Or.inr (Or.inr ⟨x, y :: r, rfl, hg2.2.1, halt, rfl⟩)
          · rw [if_neg hg2]
            exact Or.inl (Or.inr rfl)

/-- Strict descent of timestamps is inherited by the tail. -/
lemma strictDesc_tail {l : List StateTransition} (h : strictDesc l = true) :
    strictDesc l.tail = true := by
  cases l with
  | nil => exact h
  | cons x rest =>
    cases rest with
    | nil => rfl
    | cons y r => exact (strictDesc_cons_cons.1 h).2

/-- Strict descent of timestamps is inherited by any drop. -/
lemma strictDesc_drop {l : List StateTransition} (h : strictDesc l = true) :
    ∀ n, strictDesc (l.drop n) = true := by
  intro n
  induction n with
  | zero => exact h
  | succ k ih =>
    rw [← List.tail_drop]
    exact strictDesc_tail ih

/-- Replacing the head's classification does not change the timestamps, hence
preserves strict descent. -/
lemma strictDesc_setHead (l : List StateTransition) (s : ActiveState) :
    strictDesc (setHeadState l s) = strictDesc l := by
  cases l with
  | nil => rfl
  | cons x rest =>
    cases rest with
    | nil => rfl
    | cons y r => rfl

/-- Outcomes of the unknown-reclassification block on a sequence satisfying the
reconstructor's invariants, when the replacement classification is not INACTIVE
for an UNKNOWN head: the sequence is returned unchanged, or the head's UNKNOWN
classification is replaced by ACTIVE in place, or one or two entries are popped;
in the latter three cases the new head (if any) is classified ACTIVE. -/
lemma fixUnknown_cases (c : Int) (a : List StateTransition) (repl : ActiveState)
    (hinv : RevInv a)
    (hrepl : ∀ x ∈ a.take 1, x.activeState = ActiveState.UNKNOWN →
      repl ≠ ActiveState.INACTIVE) :
    fixUnknown c a repl = a ∨
    ((fixUnknown c a repl = setHeadState a ActiveState.ACTIVE ∨
      fixUnknown c a repl = a.drop 1 ∨ fixUnknown c a repl = a.drop 2) ∧
     ∀ w, (fixUnknown c a repl).head? = some w →
       w.activeState = ActiveState.ACTIVE) := by
  obtain ⟨halt, hdesc, hnut⟩ := hinv
  cases a with
  | nil => exact Or.inl rfl
  | cons x rest =>
    by_cases hxu : x.activeState = ActiveState.UNKNOWN
    case neg =>
      left
      simp only [fixUnknown]
      rw [if_pos hxu]
    case pos =>
      have hrepl' : repl ≠ ActiveState.INACTIVE := hrepl x (by simp) hxu
      have hs' : (if repl ≠ ActiveState.UNKNOWN then repl else ActiveState.ACTIVE) =
          ActiveState.ACTIVE := by
        cases repl
        · rfl
        · rfl
        · exact absurd rfl hrepl'
      right
      simp only [fixUnknown]
      rw [if_neg (by simp [hxu])]
      simp only [hs']
      cases rest with
      | nil =>
        dsimp only
        rw [if_neg (by decide)]
        refine ⟨Or.inl rfl, ?_⟩
        intro w hw
        simp only [List.head?_cons, Option.some.injEq] at hw
        subst hw
        rfl
      | cons y rest2 =>
        dsimp only
        by_cases hsy : ActiveState.ACTIVE = y.activeState
        · rw [if_pos hsy]
          refine ⟨Or.inr (Or.inl rfl), ?_⟩
          intro w hw
          simp only [List.head?_cons, Option.some.injEq] at hw
          subst hw
          exact hsy.symm
        · rw [if_neg hsy]
          cases rest2 with
          | nil =>
            dsimp only
            refine ⟨Or.inl rfl, ?_⟩
            intro w hw
            simp only [List.head?_cons, Option.some.injEq] at hw
            subst hw
            rfl
          | cons z r3 =>
            dsimp only
            by_cases hg : y.activeState = ActiveState.INACTIVE ∧
                y.timestamp - z.timestamp < c
            · rw [if_pos hg]
              refine ⟨Or.inr (Or.inr rfl), ?_⟩
              intro w hw
              simp only [List.head?_cons, Option.some.injEq] at hw
              subst hw
              obtain ⟨hxy, halt'⟩ := altern_cons_cons.1 halt
              obtain ⟨hyz, -⟩ := altern_cons_cons.1 halt'
              have hzu : z.activeState ≠ ActiveState.UNKNOWN := by
                simp only [noUnknownTail, List.tail_cons, List.all_cons,
                  Bool.and_eq_true, decide_eq_true_eq] at hnut
                exact hnut.2.1
              cases hzs : z.activeState
              · exact absurd hzs hzu
              · rfl
              · exact absurd (hg.1.trans hzs.symm) hyz
            · rw [if_neg hg]
              refine ⟨Or.inl rfl, ?_⟩
              intro w hw
              simp only [List.head?_cons, Option.some.injEq] at hw
              subst hw
              rfl

/-- C3 (amended): on a working sequence satisfying the reconstructor's invariants
(alternating classifications, strictly descending timestamps towards the tail of the
reversed list, no UNKNOWN entry except possibly the most recent), for an event strictly
newer than every recorded transition and whose replacement classification is not
INACTIVE when the most recent entry is UNKNOWN, `addStateTransition` removes at most
two entries — only the most recent ones — possibly replaces the then most recent
entry's classification in place, and then appends at most one new entry. -/
theorem addStateTransition_bounded_edit (c : Int) (a : List StateTransition)
    (nt : StateTransition) (repl : ActiveState)
    (hinv : RevInv a)
    (htime : ∀ x ∈ a, x.timestamp < nt.timestamp)
    (hrepl : ∀ x ∈ a.take 1, x.activeState = ActiveState.UNKNOWN →
      repl ≠ ActiveState.INACTIVE) :
    ∃ m ≤ 2, ∃ b,
      (b = a.drop m ∨ b = setHeadState (a.drop m) ActiveState.ACTIVE) ∧
      (addStateTransitionRev c a nt repl = b ∨
        addStateTransitionRev c a nt repl = nt :: b) := by
  have hdw : a.dropWhile (fun x => decide (nt.timestamp ≤ x.timestamp)) = a := by
    cases a with
    | nil => rfl
    | cons x rest =>
      have hx : ¬(decide (nt.timestamp ≤ x.timestamp) = true) := by
        simp only [decide_eq_true_eq]
        have := htime x (List.mem_cons_self x rest)
        omega
      exact List.dropWhile_cons_of_neg hx
  have hmain : addStateTransitionRev c a nt repl =
      addAfterFix c (fixUnknown c a repl) nt := by
    simp only [addStateTransitionRev, hdw]
  rcases fixUnknown_cases c a repl hinv hrepl with hfix | ⟨hforms, hhead⟩
  · rcases addAfterFix_cases c (fixUnknown c a repl) nt
        (by rw [hfix]; exact hinv.2.1) with
      (h1 | h1) | ⟨x, y, r, heq, hxI, hres⟩ | ⟨x, r, heq, hntA, hne, h1⟩
    · exact ⟨0, by norm_num, a, Or.inl rfl, Or.inl (by rw [hmain, h1, hfix])⟩
    · exact ⟨0, by norm_num, a, Or.inl rfl, Or.inr (by rw [hmain, h1, hfix])⟩
    · have ha : a = x :: y :: r := by rw [← hfix]; exact heq
      refine ⟨2, by norm_num, r, Or.inl (by rw [ha]; rfl), ?_⟩
      rcases hres with h1 | h1
      · exact Or.inl (by rw [hmain, h1])
      · exact Or.inr (by rw [hmain, h1])
    · have ha : a = x :: r := by rw [← hfix]; exact heq
      exact ⟨1, by norm_num, r, Or.inl (by rw [ha]; rfl), Or.inl (by rw [hmain, h1])⟩
  · have hd : strictDesc (fixUnknown c a repl) = true := by
      rcases hforms with h | h | h
      · rw [h, strictDesc_setHead]
        exact hinv.2.1
      · rw [h]
        exact strictDesc_drop hinv.2.1 1
      · rw [h]
        exact strictDesc_drop hinv.2.1 2
    have hkey : addAfterFix c (fixUnknown c a repl) nt = fixUnknown c a repl ∨
        addAfterFix c (fixUnknown c a repl) nt = nt :: fixUnknown c a repl := by
      rcases addAfterFix_cases c (fixUnknown c a repl) nt hd with
        h1 | ⟨x, y, r, heq, hxI, -⟩ | ⟨x, r, heq, hntA, hne, -⟩
      · exact h1
      · have hxA := hhead x (by rw [heq]; rfl)
        exact absurd (hxA.symm.trans hxI) (by decide)
      · have hxA := hhead x (by rw [heq]; rfl)
        exact absurd (hntA.trans hxA.symm) hne
    rcases hforms with h | h | h
    · refine ⟨0, by norm_num, setHeadState a ActiveState.ACTIVE, Or.inr rfl, ?_⟩
      rcases hkey with h1 | h1
      · exact Or.inl (by rw [hmain, h1, h])
      · exact Or.inr (by rw [hmain, h1, h])
    · refine ⟨1, by norm_num, a.drop 1, Or.inl rfl, ?_⟩
      rcases hkey with h1 | h1
      · exact Or.inl (by rw [hmain, h1, h])
      · exact Or.inr (by rw [hmain, h1, h])
    · refine ⟨2, by norm_num, a.drop 2, Or.inl rfl, ?_⟩
      rcases hkey with h1 | h1
      · exact Or.inl (by rw [hmain, h1, h])
      · exact Or.inr (by rw [hmain, h1, h])

/-- Witness for C3's amended theorem at a concrete invariant-satisfying sequence. -/
theorem addStateTransition_bounded_edit_witness :
    ∃ m ≤ 2, ∃ b,
      (b = ([⟨100, ActiveState.INACTIVE⟩, ⟨0, ActiveState.ACTIVE⟩] :
          List StateTransition).drop m ∨
        b = setHeadState (([⟨100, ActiveState.INACTIVE⟩, ⟨0, ActiveState.ACTIVE⟩] :
          List StateTransition).drop m) ActiveState.ACTIVE) ∧
      (addStateTransitionRev 10 [⟨100, ActiveState.INACTIVE⟩, ⟨0, ActiveState.ACTIVE⟩]
          ⟨200, ActiveState.ACTIVE⟩ ActiveState.ACTIVE = b ∨
        addStateTransitionRev 10 [⟨100, ActiveState.INACTIVE⟩, ⟨0, ActiveState.ACTIVE⟩]
          ⟨200, ActiveState.ACTIVE⟩ ActiveState.ACTIVE =
          ⟨200, ActiveState.ACTIVE⟩ :: b) :=
  addStateTransition_bounded_edit 10
    [⟨100, ActiveState.INACTIVE⟩, ⟨0, ActiveState.ACTIVE⟩]
    ⟨200, ActiveState.ACTIVE⟩ ActiveState.ACTIVE
    ⟨by decide, by decide, by decide⟩ (by decide) (by decide)

/-- Every node with children visited by the traversal contributes its two dummy
descriptors to the first (dummy) segment of the descriptor list. -/
lemma mem_firstSegment_of_children (F : Forest) {B : Nat} (t : JobType)
    (hperm : (preorder F).Perm (List.range F.nodes.length))
    (hB : B < F.nodes.length) (hBc : F.childrenOf B ≠ [])
    (ht : t = JobType.START_TO_START ∨ t = JobType.FINISH_TO_FINISH) :
    (B, t) ∈ jobDescriptorsFirstSegment F := by
  have hpre : B ∈ preorder F := hperm.mem_iff.2 (List.mem_range.2 hB)
  have hfil : B ∈ (preorder F).filter (fun i => F.childrenOf i ≠ []) :=
    List.mem_filter.2 ⟨hpre, by simpa using hBc⟩
  refine List.mem_flatMap.2 ⟨B, hfil, ?_⟩
  rcases ht with h | h <;> subst h <;> simp

/-- A dummy descriptor present in the first segment is found there by the index
assignment scan, at a position inside the dummy segment and holding that
descriptor. -/
lemma dummy_findIdx_spec (F : Forest) (q : Nat) (t : JobType)
    (hmem : (q, t) ∈ jobDescriptorsFirstSegment F) :
    ∃ k, (jobDescriptors F).findIdx? (fun d => d = (q, t)) = some k ∧
      k < (jobDescriptorsFirstSegment F).length ∧
      (jobDescriptors F)[k]? = some (q, t) := by
  have hex : ∃ x ∈ jobDescriptorsFirstSegment F,
      (fun d => decide (d = (q, t))) x = true := ⟨(q, t), hmem, by simp⟩
  have hlt : (jobDescriptorsFirstSegment F).findIdx (fun d => d = (q, t)) <
      (jobDescriptorsFirstSegment F).length := List.findIdx_lt_length.2 hex
  refine ⟨(jobDescriptorsFirstSegment F).findIdx (fun d => d = (q, t)), ?_, hlt, ?_⟩
  · rw [jobDescriptors, List.findIdx?_append,
      List.findIdx?_eq_some_iff_findIdx_eq.2 ⟨hlt, rfl⟩]
    rfl
  · have hval := @List.findIdx_getElem _ (fun d => d = (q, t))
      (jobDescriptorsFirstSegment F) hlt
    rw [jobDescriptors, List.getElem?_append_left hlt, List.getElem?_eq_getElem hlt]
    simp only [decide_eq_true_eq] at hval
    rw [hval]

/-- A dummy descriptor can only be found inside the first (dummy) segment: every
descriptor after it is a MAIN descriptor. -/
lemma findIdx_dummy_lt (F : Forest) (q : Nat) (t : JobType) (ht : t ≠ JobType.MAIN)
    {k : Nat} (h : (jobDescriptors F).findIdx? (fun d => d = (q, t)) = some k) :
    k < (jobDescriptorsFirstSegment F).length := by
  obtain ⟨hk, hfind⟩ := List.findIdx?_eq_some_iff_findIdx_eq.1 h
  have hW : (jobDescriptors F).findIdx (fun d => d = (q, t)) <
      (jobDescriptors F).length := by
    rw [hfind]
    exact hk
  have hsat := @List.findIdx_getElem _ (fun d => d = (q, t)) (jobDescriptors F) hW
  simp only [decide_eq_true_eq] at hsat
  have h1 : (jobDescriptors F)[k]? = some (q, t) := by
    rw [List.getElem?_eq_getElem hk]
    simp only [hfind] at hsat
    rw [hsat]
  have hdl : (jobDescriptors F).length =
      (jobDescriptorsFirstSegment F).length + F.nodes.length := by
    simp [jobDescriptors]
  by_contra hge
  push_neg at hge
  have hkn : k - (jobDescriptorsFirstSegment F).length < F.nodes.length := by omega
  rw [jobDescriptors, List.getElem?_append_right hge, List.getElem?_map,
    List.getElem?_range hkn] at h1
  simp only [Option.map_some', Option.some.injEq, Prod.mk.injEq] at h1
  exact ht h1.2.symm

/-- The start-to-start dummy index of a node is either inside the dummy segment or the
fallback main job index. -/
lemma ssIdxOf_cases (F : Forest) (q : Nat) :
    ssIdxOf F q < (jobDescriptorsFirstSegment F).length ∨ ssIdxOf F q = jobIdxOf F q := by
  unfold ssIdxOf
  cases h : (jobDescriptors F).findIdx? (fun d => d = (q, JobType.START_TO_START)) with
  | none => exact Or.inr rfl
  | some k => exact Or.inl (findIdx_dummy_lt F q _ (by decide) h)

/-- The finish-to-finish dummy index of a node is either inside the dummy segment or
the fallback main job index. -/
lemma ffIdxOf_cases (F : Forest) (q : Nat) :
    ffIdxOf F q < (jobDescriptorsFirstSegment F).length ∨ ffIdxOf F q = jobIdxOf F q := by
  unfold ffIdxOf
  cases h : (jobDescriptors F).findIdx? (fun d => d = (q, JobType.FINISH_TO_FINISH)) with
  | none => exact Or.inr rfl
  | some k => exact Or.inl (findIdx_dummy_lt F q _ (by decide) h)

/-- The finish-to-finish dummy index of a node never collides with the main job index
of a different node. -/
lemma ffIdxOf_ne_jobIdxOf_of_ne (F : Forest) {q B : Nat} (hq : q ≠ B) :
    ffIdxOf F q ≠ jobIdxOf F B := by
  rcases ffIdxOf_cases F q with h | h
  · simp only [jobIdxOf]
    omega
  · rw [h]
    simp only [jobIdxOf]
    omega

/-- The start-to-start dummy index of any node never collides with the main job index
of a node with children (under the traversal-visits-all hypothesis the source
asserts). -/
lemma ssIdxOf_ne_jobIdxOf (F : Forest) {q B : Nat}
    (hperm : (preorder F).Perm (List.range F.nodes.length))
    (hB : B < F.nodes.length) (hBc : F.childrenOf B ≠ []) :
    ssIdxOf F q ≠ jobIdxOf F B := by
  by_cases hqB : q = B
  · subst hqB
    obtain ⟨k, hfind, hlt, -⟩ := dummy_findIdx_spec F q JobType.START_TO_START
      (mem_firstSegment_of_children F _ hperm hB hBc (Or.inl rfl))
    have hss : ssIdxOf F q = k := by
      unfold ssIdxOf
      rw [hfind]
    rw [hss]
    simp only [jobIdxOf]
    omega
  · rcases ssIdxOf_cases F q with h | h
    · simp only [jobIdxOf]
      omega
    · rw [h]
      simp only [jobIdxOf]
      omega

/-- The main descriptor of node `i` sits at the main job index. -/
lemma descriptor_main (F : Forest) {i : Nat} (hi : i < F.nodes.length) :
    (jobDescriptors F)[jobIdxOf F i]? = some (i, JobType.MAIN) := by
  simp only [jobIdxOf, jobDescriptors]
  rw [List.getElem?_append_right (by omega)]
  have hsub : (jobDescriptorsFirstSegment F).length + i -
      (jobDescriptorsFirstSegment F).length = i := by omega
  rw [hsub, List.getElem?_map, List.getElem?_range hi]
  rfl

/-- C4: in the scheduling instance built by the reducer, when issue A depends on
issue B and B has children, A's job — its main job if A is childless, otherwise its
start-to-start dummy job — lists B's finish-to-finish dummy job index among its
dependencies and does not list B's main job index (the two indices differ), and B's
finish-to-finish dummy job depends exactly on the finish-to-finish (as-dependency)
job of every direct child of B followed by B's main job.  The permutation hypothesis
is the source's own assertion that the forest traversal visits every node. -/
theorem schedulingInstance_ff_dependency_wiring
    (F : Forest) (opts : SchedulingOptionsR) (A B : Nat)
    (hperm : (preorder F).Perm (List.range F.nodes.length))
    (hA : A < F.nodes.length) (hB : B < F.nodes.length)
    (hdep : B ∈ F.dependenciesOf A)
    (hBc : F.childrenOf B ≠ []) :
    ffIdxOf F B ≠ jobIdxOf F B ∧
    (makeSchedulingInstance F opts).jobs[ffIdxOf F B]? =
      some { size := 0,
             dependencies := (F.childrenOf B).map (ffIdxOf F) ++ [jobIdxOf F B] } ∧
    ∃ jA, (makeSchedulingInstance F opts).jobs[
        if F.childrenOf A = [] then jobIdxOf F A else ssIdxOf F A]? = some jA ∧
      ffIdxOf F B ∈ jA.dependencies ∧ jobIdxOf F B ∉ jA.dependencies := by
  have hjobs : (makeSchedulingInstance F opts).jobs =
      (jobDescriptors F).map (jobFor F opts) := rfl
  have hmemFF : (B, JobType.FINISH_TO_FINISH) ∈ jobDescriptorsFirstSegment F :=
    mem_firstSegment_of_children F _ hperm hB hBc (Or.inr rfl)
  obtain ⟨k, hfind, hlt, hat⟩ := dummy_findIdx_spec F B JobType.FINISH_TO_FINISH hmemFF
  have hffB : ffIdxOf F B = k := by
    unfold ffIdxOf
    rw [hfind]
  have hne : ffIdxOf F B ≠ jobIdxOf F B := by
    rw [hffB]
    simp only [jobIdxOf]
    omega
  refine ⟨hne, ?_, ?_⟩
  · rw [hjobs, List.getElem?_map, hffB, hat]
    rfl
  · by_cases hAc : F.childrenOf A = []
    · rw [if_pos hAc]
      refine ⟨jobFor F opts (A, JobType.MAIN), ?_, ?_, ?_⟩
      · rw [hjobs, List.getElem?_map, descriptor_main F hA]
        rfl
      · dsimp only [jobFor]
        rw [if_pos hAc]
        exact List.mem_append_right _ (List.mem_map.2 ⟨B, hdep, rfl⟩)
      · dsimp only [jobFor]
        rw [if_pos hAc]
        intro hmem
        rcases List.mem_append.1 hmem with hmem | hmem
        · revert hmem
          cases hp : F.parentIdx.getD A none with
          | none => simp
          | some p =>
            intro hmem
            have heq : jobIdxOf F B = ssIdxOf F p := by simpa using hmem
            exact ssIdxOf_ne_jobIdxOf F hperm hB hBc heq.symm
        · obtain ⟨d, hd, heq⟩ := List.mem_map.1 hmem
          by_cases hdB : d = B
          · subst hdB
            exact hne heq
          · exact ffIdxOf_ne_jobIdxOf_of_ne F hdB heq
    · rw [if_neg hAc]
      have hmemSS : (A, JobType.START_TO_START) ∈ jobDescriptorsFirstSegment F :=
        mem_firstSegment_of_children F _ hperm hA hAc (Or.inl rfl)
      obtain ⟨k2, hfind2, hlt2, hat2⟩ :=
        dummy_findIdx_spec F A JobType.START_TO_START hmemSS
      have hssA : ssIdxOf F A = k2 := by
        unfold ssIdxOf
        rw [hfind2]
      refine ⟨jobFor F opts (A, JobType.START_TO_START), ?_, ?_, ?_⟩
      · rw [hjobs, List.getElem?_map, hssA, hat2]
        rfl
      · dsimp only [jobFor]
        exact List.mem_append_right _ (List.mem_map.2 ⟨B, hdep, rfl⟩)
      · dsimp only [jobFor]
        intro hmem
        rcases List.mem_append.1 hmem with hmem | hmem
        · revert hmem
          cases hp : F.parentIdx.getD A none with
          | none => simp
          | some p =>
            intro hmem
            have heq : jobIdxOf F B = ssIdxOf F p := by simpa using hmem
            exact ssIdxOf_ne_jobIdxOf F hperm hB hBc heq.symm
        · obtain ⟨d, hd, heq⟩ := List.mem_map.1 hmem
          by_cases hdB : d = B
          · subst hdB
            exact hne heq
          · exact ffIdxOf_ne_jobIdxOf_of_ne F hdB heq

/-- Witness for C4's theorem at the concrete three-issue forest (A depends on B,
B has child C). -/
theorem schedulingInstance_ff_dependency_wiring_witness :
    ffIdxOf forestC4 1 ≠ jobIdxOf forestC4 1 ∧
    (makeSchedulingInstance forestC4 optsC4).jobs[ffIdxOf forestC4 1]? =
      some { size := 0,
             dependencies := (forestC4.childrenOf 1).map (ffIdxOf forestC4) ++
               [jobIdxOf forestC4 1] } ∧
    ∃ jA, (makeSchedulingInstance forestC4 optsC4).jobs[
        if forestC4.childrenOf 0 = [] then jobIdxOf forestC4 0
        else ssIdxOf forestC4 0]? = some jA ∧
      ffIdxOf forestC4 1 ∈ jA.dependencies ∧ jobIdxOf forestC4 1 ∉ jA.dependencies :=
  schedulingInstance_ff_dependency_wiring forestC4 optsC4 0 1 (by decide) (by decide)
    (by decide) (by decide) (by decide)

/-- The separation-and-maximality relation is symmetric. -/
lemma separatedMax_symm : Symmetric SeparatedMax := by
  intro x y h hflag
  obtain ⟨hsep, hab1, hab2⟩ := h hflag.symm
  exact ⟨hsep.symm, fun he heq => hab2 he heq.symm, fun he heq => hab1 he heq.symm⟩

/-- Inserting into a sorted list keeps it sorted, for a total transitive comparator. -/
lemma stableInsert_pairwise {α : Type} {le : α → α → Bool}
    (htot : ∀ a b, le a b = true ∨ le b a = true)
    (htrans : ∀ a b c, le a b = true → le b c = true → le a c = true)
    (x : α) : ∀ {l : List α}, List.Pairwise (fun a b => le a b = true) l →
      List.Pairwise (fun a b => le a b = true) (stableInsert le x l) := by
  intro l
  induction l with
  | nil =>
    intro _
    simp [stableInsert]
  | cons y l ih =>
    intro hp
    simp only [stableInsert]
    split
    next hxy =>
      refine List.Pairwise.cons ?_ hp
      intro z hz
      rcases List.mem_cons.1 hz with rfl | hz
      · exact hxy
      · exact htrans x y z hxy ((List.pairwise_cons.1 hp).1 z hz)
    next hxy =>
      have hyx : le y x = true := by
        rcases htot x y with h | h
        · exact absurd h hxy
        · exact h
      obtain ⟨hy, hl⟩ := List.pairwise_cons.1 hp
      refine List.pairwise_cons.2 ⟨?_, ih hl⟩
      intro z hz
      have hz' := (stableInsert_perm le x l).mem_iff.1 hz
      rcases List.mem_cons.1 hz' with rfl | hz''
      · exact hyx
      · exact hy z hz''

/-- The stable sort sorts, for a total transitive comparator. -/
lemma stableSort_pairwise {α : Type} {le : α → α → Bool}
    (htot : ∀ a b, le a b = true ∨ le b a = true)
    (htrans : ∀ a b c, le a b = true → le b c = true → le a c = true) :
    ∀ (l : List α), List.Pairwise (fun a b => le a b = true) (stableSort le l) := by
  intro l
  induction l with
  | nil => simp [stableSort]
  | cons x l ih => exact stableInsert_pairwise htot htrans x ih

/-- Keys after a JavaScript `Map.set` are the old keys, possibly with the new key. -/
lemma mem_keys_jsMapSet {m : List (String × Int)} {k a : String} {v : Int}
    (h : a ∈ (jsMapSet m k v).map Prod.fst) : a ∈ m.map Prod.fst ∨ a = k := by
  induction m with
  | nil =>
    simp only [jsMapSet, List.map_cons, List.map_nil, List.mem_singleton] at h
    exact Or.inr h
  | cons kv rest ih =>
    simp only [jsMapSet] at h
    by_cases hk : kv.1 = k
    · rw [if_pos hk] at h
      simp only [List.map_cons, List.mem_cons] at h
      rcases h with h | h
      · exact Or.inr h
      · exact Or.inl (List.mem_cons_of_mem _ h)
    · rw [if_neg hk] at h
      simp only [List.map_cons, List.mem_cons] at h
      rcases h with h | h
      · exact Or.inl (by simp [h])
      · rcases ih h with h' | h'
        · exact Or.inl (List.mem_cons_of_mem _ h')
        · exact Or.inr h'

/-- JavaScript `Map.set` preserves distinctness of keys. -/
lemma jsMapSet_nodupKeys {m : List (String × Int)} {k : String} {v : Int}
    (h : (m.map Prod.fst).Nodup) : ((jsMapSet m k v).map Prod.fst).Nodup := by
  induction m with
  | nil => simp [jsMapSet]
  | cons kv rest ih =>
    simp only [List.map_cons, List.nodup_cons] at h
    simp only [jsMapSet]
    by_cases hk : kv.1 = k
    · rw [if_pos hk]
      simp only [List.map_cons, List.nodup_cons]
      exact ⟨hk ▸ h.1, h.2⟩
    · rw [if_neg hk]
      simp only [List.map_cons, List.nodup_cons]
      refine ⟨?_, ih h.2⟩
      intro hmem
      rcases mem_keys_jsMapSet hmem with h' | h'
      · exact h.1 h'
      · exact hk h'

/-- On a map with distinct keys, `Map.get` returns the stored value. -/
lemma jsMapGet_of_mem_nodup {m : List (String × Int)} {k : String} {v : Int}
    (hmem : (k, v) ∈ m) (h : (m.map Prod.fst).Nodup) : jsMapGet m k = some v := by
  induction m with
  | nil => simp at hmem
  | cons kv rest ih =>
    simp only [List.map_cons, List.nodup_cons] at h
    simp only [jsMapGet]
    rcases List.mem_cons.1 hmem with he | hm
    · rw [← he]
      rw [if_pos rfl]
    · have hk : kv.1 ≠ k := by
        intro he
        exact h.1 (he ▸ List.mem_map.2 ⟨(k, v), hm, rfl⟩)
      rw [if_neg hk]
      exact ih hm h.2

/-- Closed form of `timePassed`. -/
lemma timePassed_unfold (la : MultiAssigneeIssueActivity) (T : Int)
    (counts : List (String × Int)) (result : List MultiAssigneeIssueActivity) (g : Bool) :
    timePassed la T counts result g =
      if (la.assignees.any (fun assignee => decide ((jsMapGet counts assignee).getD 0 ≤ 0)) ||
          decide (la.assignees.length ≠
            ((counts.filter (fun kv => decide (0 < kv.2))).map (·.1)).length)) then
        (⟨stableSort jsStringLE ((counts.filter (fun kv => decide (0 < kv.2))).map (·.1)),
          T, MAX_SAFE_INTEGER, g⟩,
         if la.assignees.length > 0 then result ++ [{ la with stop := T }] else result)
      else (la, result) := by
  rfl

/-- One `timePassed` call preserves the sweep invariant: the committed intervals stay
pairwise separated and maximal, every newly committed entry carries the group's flag,
and for any strictly later current timestamp the full invariant holds again. -/
lemma timePassed_step (g : Bool) (r : List MultiAssigneeIssueActivity)
    (la : MultiAssigneeIssueActivity) (T : Int) (counts : List (String × Int))
    (result : List MultiAssigneeIssueActivity)
    (hinv : SweepInv g r ⟨la, T, counts, result⟩) :
    List.Pairwise SeparatedMax (timePassed la T counts result g).2 ∧
    (∀ x ∈ (timePassed la T counts result g).2, x.isWaiting = g ∨ x ∈ r) ∧
    ∀ t, T < t →
      SweepInv g r ⟨(timePassed la T counts result g).1, t, counts,
        (timePassed la T counts result g).2⟩ := by
  simp only [SweepInv] at hinv
  obtain ⟨hA, hW, hD, hE, hG, hR⟩ := hinv
  rw [timePassed_unfold]
  by_cases hch : (la.assignees.any
        (fun assignee => decide ((jsMapGet counts assignee).getD 0 ≤ 0)) ||
      decide (la.assignees.length ≠
        ((counts.filter (fun kv => decide (0 < kv.2))).map (·.1)).length)) = true
  case neg =>
    rw [if_neg hch]
    dsimp only
    refine ⟨hA, fun x hx => hR x hx, ?_⟩
    intro t ht
    simp only [SweepInv]
    refine ⟨hA, hW, ?_, hE, hG, hR⟩
    rcases hD with h | h
    · exact Or.inl (lt_trans h ht)
    · exact Or.inr ⟨h.1, fun x hx hf => lt_trans (h.2 x hx hf) ht⟩
  case pos =>
    rw [if_pos hch]
    by_cases hlen : la.assignees.length > 0
    · rw [if_pos hlen]
      dsimp only
      have hgw : la.isWaiting = g := by
        rcases hG with h | h
        · exact h
        · rw [h] at hlen
          simp at hlen
      have hlt : la.start < T := by
        rcases hD with h | h
        · exact h
        · rw [h.1] at hlen
          simp at hlen
      have hkey : la.assignees ≠
          stableSort jsStringLE ((counts.filter (fun kv => decide (0 < kv.2))).map (·.1)) := by
        have hch2 := hch
        simp only [Bool.or_eq_true] at hch2
        rcases hch2 with hloss | hlendiff
        · obtain ⟨a, ha, hcnt⟩ := List.any_eq_true.1 hloss
          simp only [decide_eq_true_eq] at hcnt
          intro heq
          have hmem : a ∈ (counts.filter (fun kv => decide (0 < kv.2))).map (·.1) :=
            mem_stableSort.1 (heq ▸ ha)
          obtain ⟨kv, hkv, hfst⟩ := List.mem_map.1 hmem
          obtain ⟨hkvc, hkvpos⟩ := List.mem_filter.1 hkv
          simp only [decide_eq_true_eq] at hkvpos
          have hget : jsMapGet counts a = some kv.2 := by
            have hmm : (a, kv.2) ∈ counts := by
              rw [← hfst]
              exact hkvc
            exact jsMapGet_of_mem_nodup hmm hE
          rw [hget] at hcnt
          simp only [Option.getD_some] at hcnt
          omega
        · simp only [decide_eq_true_eq] at hlendiff
          intro heq
          apply hlendiff
          rw [heq]
          exact ((stableSort_perm jsStringLE _).length_eq)
      have hpush : ∀ x ∈ result, SeparatedMax x { la with stop := T } := by
        intro x hx hflag
        dsimp only at hflag ⊢
        have hxg : x.isWaiting = g := hflag.trans hgw
        obtain ⟨hxs, hxlt, hxab⟩ := hW x hx hxg
        refine ⟨Or.inl hxs, fun hab => hxab hab, fun hab => ?_⟩
        exfalso
        omega
      have hApush : List.Pairwise SeparatedMax (result ++ [{ la with stop := T }]) := by
        rw [List.pairwise_append]
        refine ⟨hA, by simp, ?_⟩
        intro x hx y hy
        rw [List.mem_singleton] at hy
        rw [hy]
        exact hpush x hx
      refine ⟨hApush, ?_, ?_⟩
      · intro x hx
        rcases List.mem_append.1 hx with hx | hx
        · exact hR x hx
        · rw [List.mem_singleton] at hx
          rw [hx]
          exact Or.inl hgw
      · intro t ht
        simp only [SweepInv]
        refine ⟨hApush, ?_, Or.inl ht, hE, Or.inl trivial, ?_⟩
        · intro x hx hf
          rcases List.mem_append.1 hx with hx | hx
          · obtain ⟨hxs, hxlt, -⟩ := hW x hx hf
            refine ⟨le_of_lt (lt_of_le_of_lt hxs hlt), hxlt, fun hab => ?_⟩
            exfalso
            omega
          · rw [List.mem_singleton] at hx
            subst hx
            dsimp only at hf ⊢
            exact ⟨le_refl T, hlt, fun _ => hkey⟩
        · intro x hx
          rcases List.mem_append.1 hx with hx | hx
          · exact hR x hx
          · rw [List.mem_singleton] at hx
            rw [hx]
            exact Or.inl hgw
    · rw [if_neg hlen]
      dsimp only
      have hstrict : ∀ x ∈ result, x.isWaiting = g → x.stop < T := by
        intro x hx hf
        rcases hD with h | h
        · exact lt_of_le_of_lt (hW x hx hf).1 h
        · exact h.2 x hx hf
      refine ⟨hA, fun x hx => hR x hx, ?_⟩
      intro t ht
      simp only [SweepInv]
      refine ⟨hA, ?_, Or.inl ht, hE, Or.inl trivial, hR⟩
      intro x hx hf
      refine ⟨le_of_lt (hstrict x hx hf), (hW x hx hf).2.1, fun hab => ?_⟩
      exfalso
      have hs := hstrict x hx hf
      omega

/-- One event-loop iteration preserves the sweep invariant when the event is not older
than the last seen timestamp, and records the event's timestamp. -/
lemma processIssueEvent_inv (g : Bool) (r : List MultiAssigneeIssueActivity)
    (st : SweepState) (e : IssueEvent)
    (hinv : SweepInv g r st) (hts : st.lastTimestamp ≤ e.timestamp)
    {st2 : SweepState} (h : processIssueEvent g st e = some st2) :
    SweepInv g r st2 ∧ st2.lastTimestamp = e.timestamp := by
  by_cases hlt : st.lastTimestamp < e.timestamp
  · obtain ⟨hP, hFl, hInv⟩ := timePassed_step g r st.lastActivity st.lastTimestamp
      st.counts st.result hinv
    have hinv2 := hInv e.timestamp hlt
    rcases htp : timePassed st.lastActivity st.lastTimestamp st.counts st.result g with
      ⟨la2, res2⟩
    rw [htp] at hinv2
    simp only [processIssueEvent] at h
    rw [if_pos hlt, htp] at h
    dsimp only at h
    split at h <;> split at h
    · exact absurd h (by simp)
    ·
      have h2 := Option.some.inj h
      subst h2
      refine ⟨?_, rfl⟩
      simp only [SweepInv] at hinv2 ⊢
      obtain ⟨a1, a2, a3, a4, a5, a6⟩ := hinv2
      exact ⟨a1, a2, a3, jsMapSet_nodupKeys a4, a5, a6⟩
    · exact absurd h (by simp)
    ·
      have h2 := Option.some.inj h
      subst h2
      refine ⟨?_, rfl⟩
      simp only [SweepInv] at hinv2 ⊢
      obtain ⟨a1, a2, a3, a4, a5, a6⟩ := hinv2
      exact ⟨a1, a2, a3, jsMapSet_nodupKeys a4, a5, a6⟩
  · have heq : e.timestamp = st.lastTimestamp := le_antisymm (not_lt.1 hlt) hts
    simp only [processIssueEvent] at h
    rw [if_neg hlt] at h
    dsimp only at h
    split at h <;> split at h
    · exact absurd h (by simp)
    ·
      have h2 := Option.some.inj h
      subst h2
      refine ⟨?_, rfl⟩
      simp only [SweepInv] at hinv ⊢
      obtain ⟨a1, a2, a3, a4, a5, a6⟩ := hinv
      refine ⟨a1, a2, ?_, jsMapSet_nodupKeys a4, a5, a6⟩
      rw [heq]
      exact a3
    · exact absurd h (by simp)
    ·
      have h2 := Option.some.inj h
      subst h2
      refine ⟨?_, rfl⟩
      simp only [SweepInv] at hinv ⊢
      obtain ⟨a1, a2, a3, a4, a5, a6⟩ := hinv
      refine ⟨a1, a2, ?_, jsMapSet_nodupKeys a4, a5, a6⟩
      rw [heq]
      exact a3

/-- Folding the event loop over a sorted event list whose timestamps are not older than
the current sweep timestamp preserves the sweep invariant. -/
lemma sweep_fold_inv (g : Bool) (r : List MultiAssigneeIssueActivity) :
    ∀ (events : List IssueEvent) (st : SweepState),
      SweepInv g r st →
      List.Pairwise (fun e1 e2 => e1.timestamp ≤ e2.timestamp) events →
      (∀ e ∈ events, st.lastTimestamp ≤ e.timestamp) →
      ∀ st2, events.foldlM (processIssueEvent g) st = some st2 →
      SweepInv g r st2 := by
  intro events
  induction events with
  | nil =>
    intro st hinv _ _ st2 h
    exact (Option.some.inj h) ▸ hinv
  | cons e rest ih =>
    intro st hinv hsort hts st2 h
    rw [List.foldlM_cons] at h
    cases hpe : processIssueEvent g st e with
    | none =>
      rw [hpe] at h
      exact Option.noConfusion h
    | some st1 =>
      rw [hpe] at h
      obtain ⟨hinv1, hts1⟩ := processIssueEvent_inv g r st e hinv (hts e (by simp)) hpe
      refine ih st1 hinv1 (List.Pairwise.of_cons hsort) ?_ st2 h
      intro e2 he2
      rw [hts1]
      exact (List.pairwise_cons.1 hsort).1 e2 he2

/-- The sweep invariant holds initially: the pending activity is the empty sentinel
and the carried results are from the other group. -/
lemma sweepInv_init (g : Bool) (r : List MultiAssigneeIssueActivity)
    (hr : List.Pairwise SeparatedMax r)
    (hrflag : ∀ x ∈ r, x.isWaiting ≠ g) :
    SweepInv g r ⟨⟨[], MIN_SAFE_INTEGER, MAX_SAFE_INTEGER, false⟩, MIN_SAFE_INTEGER,
      [], r⟩ := by
  simp only [SweepInv]
  exact ⟨hr,
    fun x hx hf => absurd hf (hrflag x hx),
    Or.inr ⟨trivial, fun x hx hf => absurd hf (hrflag x hx)⟩,
    by simp,
    Or.inr trivial,
    fun x hx => Or.inr hx⟩

/-- One wait-status group of the grouper keeps the accumulated result pairwise
separated and maximal, and only appends intervals carrying the group's flag. -/
lemma runWaitStatusGroup_pairwise (activities : List IssueActivity) (g : Bool)
    (r res : List MultiAssigneeIssueActivity)
    (hr : List.Pairwise SeparatedMax r)
    (hrflag : ∀ x ∈ r, x.isWaiting ≠ g)
    (hbound : ∀ a ∈ activities, MIN_SAFE_INTEGER ≤ a.start ∧ MIN_SAFE_INTEGER ≤ a.stop)
    (h : runWaitStatusGroup activities g r = some res) :
    List.Pairwise SeparatedMax res ∧ ∀ x ∈ res, x.isWaiting = g ∨ x ∈ r := by
  simp only [runWaitStatusGroup] at h
  cases hfold : (stableSort (fun e1 e2 : IssueEvent => decide (e1.timestamp ≤ e2.timestamp))
      ((activities.filter (fun a => a.isWaiting = g)).flatMap
        (fun activity => ([⟨IssueEventType.ADDED, activity.assignee, activity.start, g⟩,
           ⟨IssueEventType.REMOVED, activity.assignee, activity.stop, g⟩] :
           List IssueEvent)))).foldlM
      (processIssueEvent g)
      ⟨⟨[], MIN_SAFE_INTEGER, MAX_SAFE_INTEGER, false⟩, MIN_SAFE_INTEGER, [], r⟩ with
  | none =>
    rw [hfold] at h
    exact Option.noConfusion h
  | some stf =>
    rw [hfold] at h
    have h2 : (timePassed stf.lastActivity stf.lastTimestamp stf.counts stf.result g).2 =
        res := Option.some.inj h
    have htot : ∀ e1 e2 : IssueEvent, (decide (e1.timestamp ≤ e2.timestamp)) = true ∨
        (decide (e2.timestamp ≤ e1.timestamp)) = true := by
      intro e1 e2
      rcases Int.le_total e1.timestamp e2.timestamp with hle | hle
      · exact Or.inl (by simpa using hle)
      · exact Or.inr (by simpa using hle)
    have htrans : ∀ e1 e2 e3 : IssueEvent, decide (e1.timestamp ≤ e2.timestamp) = true →
        decide (e2.timestamp ≤ e3.timestamp) = true →
        decide (e1.timestamp ≤ e3.timestamp) = true := by
      intro e1 e2 e3 h1 h3
      simp only [decide_eq_true_eq] at h1 h3 ⊢
      omega
    have hsorted : List.Pairwise (fun e1 e2 : IssueEvent => e1.timestamp ≤ e2.timestamp)
        (stableSort (fun e1 e2 : IssueEvent => decide (e1.timestamp ≤ e2.timestamp))
          ((activities.filter (fun a => a.isWaiting = g)).flatMap
            (fun activity =>
              ([⟨IssueEventType.ADDED, activity.assignee, activity.start, g⟩,
               ⟨IssueEventType.REMOVED, activity.assignee, activity.stop, g⟩] :
               List IssueEvent)))) :=
      (stableSort_pairwise htot htrans _).imp (fun hd => by simpa using hd)
    have hinit : ∀ e ∈ stableSort (fun e1 e2 : IssueEvent => decide (e1.timestamp ≤ e2.timestamp))
        ((activities.filter (fun a => a.isWaiting = g)).flatMap
          (fun activity =>
            ([⟨IssueEventType.ADDED, activity.assignee, activity.start, g⟩,
             ⟨IssueEventType.REMOVED, activity.assignee, activity.stop, g⟩] :
             List IssueEvent))),
        MIN_SAFE_INTEGER ≤ e.timestamp := by
      intro e he
      obtain ⟨a, ha, hmem⟩ := List.mem_flatMap.1 (mem_stableSort.1 he)
      obtain ⟨hb1, hb2⟩ := hbound a (List.mem_filter.1 ha).1
      rcases List.mem_cons.1 hmem with rfl | hmem2
      · exact hb1
      · rw [List.mem_singleton] at hmem2
        rw [hmem2]
        exact hb2
    have hstf := sweep_fold_inv g r _
      ⟨⟨[], MIN_SAFE_INTEGER, MAX_SAFE_INTEGER, false⟩, MIN_SAFE_INTEGER, [], r⟩
      (sweepInv_init g r hr hrflag) hsorted hinit stf hfold
    obtain ⟨hP, hFl, -⟩ := timePassed_step g r stf.lastActivity stf.lastTimestamp
      stf.counts stf.result hstf
    rw [h2] at hP hFl
    exact ⟨hP, hFl⟩

/-- C5 (amended): for inputs whose timestamps are at least the MIN_SAFE_INTEGER
sentinel the sweep starts from, any two distinct intervals returned by
`groupByIntervalAndWaitStatus` with the same waiting flag are disjoint (one ends at or
before the other starts; a waiting and a non-waiting interval may well overlap), and
when two same-flag intervals abut their assignee sets differ, so no two returned
intervals could be merged into one. -/
theorem groupByIntervalAndWaitStatus_same_flag_disjoint_maximal
    (activities : List IssueActivity) (res : List MultiAssigneeIssueActivity)
    (hbound : ∀ a ∈ activities, MIN_SAFE_INTEGER ≤ a.start ∧ MIN_SAFE_INTEGER ≤ a.stop)
    (h : groupByIntervalAndWaitStatus activities = some res) :
    List.Pairwise SeparatedMax res := by
  simp only [groupByIntervalAndWaitStatus] at h
  cases h1 : runWaitStatusGroup activities false [] with
  | none =>
    rw [h1] at h
    exact Option.noConfusion h
  | some r1 =>
    rw [h1] at h
    have h' : (runWaitStatusGroup activities true r1).bind
        (fun r2 => some (stableSort multiActivityLE r2)) = some res := h
    cases h2 : runWaitStatusGroup activities true r1 with
    | none =>
      rw [h2] at h'
      exact Option.noConfusion h'
    | some r2 =>
      rw [h2] at h'
      have h3 : stableSort multiActivityLE r2 = res := Option.some.inj h'
      obtain ⟨hp1, hf1⟩ := runWaitStatusGroup_pairwise activities false [] r1
        (by simp) (by simp) hbound h1
      have hrflag : ∀ x ∈ r1, x.isWaiting ≠ true := by
        intro x hx
        rcases hf1 x hx with hg | hg
        · simp [hg]
        · simp at hg
      obtain ⟨hp2, -⟩ := runWaitStatusGroup_pairwise activities true r1 r2 hp1 hrflag
        hbound h2
      rw [← h3]
      exact ((stableSort_perm multiActivityLE r2).pairwise_iff
        (fun hxy => separatedMax_symm hxy)).2 hp2

/-- Witness for C5's amended theorem at the two-overlapping-activities input. -/
theorem groupByIntervalAndWaitStatus_same_flag_disjoint_maximal_witness :
    List.Pairwise SeparatedMax
      [⟨["a"], 0, 1, false⟩, ⟨["a", "b"], 1, 2, false⟩, ⟨["b"], 2, 3, false⟩] :=
  groupByIntervalAndWaitStatus_same_flag_disjoint_maximal
    [⟨"a", 0, 2, false⟩, ⟨"b", 1, 3, false⟩]
    [⟨["a"], 0, 1, false⟩, ⟨["a", "b"], 1, 2, false⟩, ⟨["b"], 2, 3, false⟩]
    (by decide) (by decide)

end YouTrackPlanning
